import Mathlib

/-!
# Verification of the neuro-trace fraud-analysis engine

A shallow embedding in Lean 4 of the graph construction and multi-pattern
detection/scoring engine of the neuro-trace repository (`analysis.ts`:
`buildGraph`, `detectCycles`, `detectSmurfing`, `detectShellChains`,
`detectHighValueOutliers`, `louvainCommunities`, `runAnalysis`).

Modelling conventions:
* JavaScript objects (`Record<string, T>`) are modelled as insertion-ordered
  association lists `List (String × T)` (account ids are treated as opaque
  non-index strings, for which JS objects iterate in insertion order);
  JS `Map`/`Set` are likewise insertion-ordered lists.
* JS numbers carrying transaction amounts and derived statistics are
  modelled as exact rationals `ℚ`; timestamps (`Date.getTime()`) as `ℤ`.
* The outlier test `a > mean + 2·stddev` is expressed over `ℚ` in the
  squared form `a - mean > 0 ∧ (a - mean)² > 4·variance`, which is proved
  below (`isOutlierAmt_iff_real`) to coincide with the real-number
  comparison against `mean + 2·√variance`.
* `performance.now()` timing is environmental and is omitted from the
  summary structure.
-/

namespace NeuroTrace

/- The core rational operations are sealed `irreducible` by default, which
blocks kernel evaluation of concrete instances of the engine; unseal them so
that `decide` can run the embedded pipeline on test inputs. -/
unseal Rat.add Rat.mul Rat.sub Rat.inv

/-- A transaction row (`TxRow` in `types.ts`): sender, receiver, amount and
timestamp (milliseconds).  The `transaction_id` field is never read by the
engine and is omitted. -/
structure TxRow where
  sender_id : String
  receiver_id : String
  amount : ℚ
  timestamp : Int
deriving DecidableEq

/-- First-binding lookup in an association list (JS `m[k]`). -/
def alookup {α β : Type} [DecidableEq α] (m : List (α × β)) (k : α) : Option β :=
  match m with
  | [] => none
  | (k', v) :: rest => if k' = k then some v else alookup rest k

/-- Insertion-ordered upsert on an association list, mirroring the JS object
idiom `if (!m[k]) m[k] = d; m[k] = f(m[k])`: if the key is present its value
is updated in place, otherwise a new binding is appended. -/
def upsert {α β : Type} [DecidableEq α] (m : List (α × β)) (k : α) (d : β) (f : β → β) :
    List (α × β) :=
  match m with
  | [] => [(k, f d)]
  | (k', v) :: rest => if k' = k then (k', f v) :: rest else (k', v) :: upsert rest k d f

/-- Update the value at `k` only when the key is present
(JS `if (m[k]) m[k] = ...`). -/
def updIf {α β : Type} [DecidableEq α] (m : List (α × β)) (k : α) (f : β → β) :
    List (α × β) :=
  match m with
  | [] => []
  | (k', v) :: rest => if k' = k then (k', f v) :: rest else (k', v) :: updIf rest k f

/-- JS `Set.add`: append the element if it is not already present. -/
def setAdd (l : List String) (x : String) : List String :=
  if x ∈ l then l else l ++ [x]

/-- `new Set([...a, ...b])`: concatenation with first-occurrence dedup. -/
def dedupConcat (a b : List String) : List String :=
  (a ++ b).foldl setAdd []

/-- Value of an object field, `m[k]`, defaulting when absent. -/
def objGetD {β : Type} (m : List (String × β)) (k : String) (d : β) : β :=
  (alookup m k).getD d

/-- Stable insertion into a sorted list: `x` goes after every element `y`
with `le y x` (so ties keep the earlier element first). -/
def insertStable {α : Type} (le : α → α → Bool) (x : α) : List α → List α
  | [] => [x]
  | y :: ys => if le y x then y :: insertStable le x ys else x :: y :: ys

/-- Stable sort by a total boolean preorder, modelling the ECMAScript
`Array.prototype.sort` (which is required to be stable): for a total `le`
the stable order is unique, so this insertion sort produces the same list
as the engine's native sort. -/
def stableSort {α : Type} (le : α → α → Bool) (l : List α) : List α :=
  l.foldl (fun acc x => insertStable le x acc) []

/-- The directed-graph structures produced by `buildGraph`. -/
structure Graph where
  adj : List (String × List String)
  reverseAdj : List (String × List String)
  txCounts : List (String × Nat)
  edgeTimestamps : List (String × List Int)
  edgeAmounts : List (String × List ℚ)
deriving DecidableEq

/-- The edge key string `` `${sender_id}->${receiver_id}` ``. -/
def edgeKey (s r : String) : String := s ++ "->" ++ r

/-- One iteration of the `buildGraph` loop body. -/
def buildGraphStep (g : Graph) (row : TxRow) : Graph :=
  let s := row.sender_id
  let r := row.receiver_id
  { adj := upsert g.adj s [] (fun v => setAdd v r)
    reverseAdj := upsert g.reverseAdj r [] (fun v => setAdd v s)
    txCounts := upsert (upsert g.txCounts s 0 (· + 1)) r 0 (· + 1)
    edgeTimestamps := upsert g.edgeTimestamps (edgeKey s r) [] (fun v => v ++ [row.timestamp])
    edgeAmounts := upsert g.edgeAmounts (edgeKey s r) [] (fun v => v ++ [row.amount]) }

/-- `buildGraph`: fold the per-row step over the transaction list. -/
def buildGraph (rows : List TxRow) : Graph :=
  rows.foldl buildGraphStep ⟨[], [], [], [], []⟩

/-- `adj[node]` as a list of successors (empty when the node has no entry). -/
def adjGet (adj : List (String × List String)) (n : String) : List String :=
  (alookup adj n).getD []

/-- Total transaction count of a node, `txCounts[node] || 0`. -/
def txCountOf (txCounts : List (String × Nat)) (n : String) : Nat :=
  (alookup txCounts n).getD 0

/-- The recursive DFS inside `detectCycles`.  `path` is the JS `path` array
*before* the current node is pushed (the JS `visited` set always equals the
set of nodes on `path`, so it is not modelled separately); entering the
function pushes `node`.  A neighbor equal to `start` at depth ≥ 2 records
the current path as a cycle; an unvisited neighbor is explored one level
deeper.  The structural-recursion argument `fuel` stands in for the JS
guard `depth > maxLength`: all call sites maintain
`depth + fuel = maxLength + 1`, so `fuel = 0` holds exactly when
`depth = maxLength + 1 > maxLength`, where the JS function returns with no
cycles recorded. -/
def dfs (adj : List (String × List String)) (start : String) :
    Nat → Nat → String → List String → List (List String)
  | 0, _, _, _ => []
  | fuel + 1, depth, node, path =>
      (adjGet adj node).flatMap (fun neighbor =>
        if neighbor = start ∧ 2 ≤ depth then [path ++ [node]]
        else if neighbor ∈ path ++ [node] then []
        else dfs adj start fuel (depth + 1) neighbor (path ++ [node]))

/-- Lexicographic comparison of character lists by code point, the order
underlying the JS string comparison `a < b` (account ids are compared code
unit by code unit; for the scalar values handled here this is the standard
lexicographic order). -/
def lexLt : List Char → List Char → Bool
  | _, [] => false
  | [], _ :: _ => true
  | c :: cs, d :: ds => if c = d then lexLt cs ds else decide (c.toNat < d.toNat)

/-- The JS string comparison `a < b`. -/
def strLt (a b : String) : Bool := lexLt a.data b.data

/-- `cycle.reduce((a, b) => (a < b ? a : b))` on a nonempty list. -/
def minNode (h : String) (t : List String) : String :=
  t.foldl (fun a b => if strLt a b then a else b) h

/-- Rotate a discovered cycle so that it starts at its lexicographically
smallest node id (`[...cycle.slice(minIdx), ...cycle.slice(0, minIdx)]`). -/
def normalizeCycle (c : List String) : List String :=
  match c with
  | [] => []
  | h :: t =>
      let m := minNode h t
      let i := (h :: t).indexOf m
      (h :: t).drop i ++ (h :: t).take i

/-- The rotation-based dedup at the end of `detectCycles`: insert each
normalized cycle into an insertion-ordered map keyed by the comma-joined
sequence, then take the values. -/
def dedupeCycles (cs : List (List String)) : List (List String) :=
  (cs.foldl (fun (acc : List (String × List String)) c =>
      let n := normalizeCycle c
      upsert acc (String.intercalate "," n) [] (fun _ => n)) []).map Prod.snd

/-- `detectCycles`: DFS from every adjacency key (`dfs(start, 0)` with
`fuel = maxLength + 1`), then dedupe by rotation. -/
def detectCycles (adj : List (String × List String)) (maxLength : Nat := 5) :
    List (List String) :=
  dedupeCycles ((adj.map Prod.fst).flatMap
    (fun start => dfs adj start (maxLength + 1) 0 start []))

/-- Distinct-counterparty threshold of the smurfing detector. -/
def THRESHOLD : Nat := 10

/-- Total-transaction cutoff above which a node is presumed a merchant. -/
def MERCHANT_THRESHOLD : Nat := 100

/-- 72 hours in milliseconds. -/
def WINDOW_MS : Int := 72 * 3600 * 1000

/-- The sliding-window scan of `detectSmurfing`: does any run of `THRESHOLD`
consecutive (sorted) timestamps span at most `WINDOW_MS`? -/
def hasTightWindow (times : List Int) : Bool :=
  (List.range (times.length + 1 - THRESHOLD)).any (fun i =>
    (times.getD (i + THRESHOLD - 1) 0) - (times.getD i 0) ≤ WINDOW_MS)

/-- All timestamps on the edges between `node` and its counterparties `cps`
(in the direction given by `key`), sorted ascending. -/
def gatherTimes (edgeTimestamps : List (String × List Int)) (keys : List String) :
    List Int :=
  stableSort (fun a b => a ≤ b) (keys.flatMap (fun k => (alookup edgeTimestamps k).getD []))

/-- State threaded through the `detectSmurfing` node loop. -/
structure SmurfState where
  fanOutNodes : List String
  fanInNodes : List String
  temporalNodes : List String
deriving DecidableEq

/-- The fan-out half of the `detectSmurfing` loop body. -/
def smurfOutStep (adj : List (String × List String))
    (edgeTimestamps : List (String × List Int)) (st : SmurfState) (node : String) :
    SmurfState :=
  let receivers := adjGet adj node
  if THRESHOLD ≤ receivers.length then
    let times := gatherTimes edgeTimestamps (receivers.map (fun r => edgeKey node r))
    { st with
      fanOutNodes := setAdd st.fanOutNodes node
      temporalNodes := if hasTightWindow times then setAdd st.temporalNodes node
                       else st.temporalNodes }
  else st

/-- The fan-in half of the `detectSmurfing` loop body. -/
def smurfInStep (reverseAdj : List (String × List String))
    (edgeTimestamps : List (String × List Int)) (st : SmurfState) (node : String) :
    SmurfState :=
  let senders := adjGet reverseAdj node
  if THRESHOLD ≤ senders.length then
    let times := gatherTimes edgeTimestamps (senders.map (fun s => edgeKey s node))
    { st with
      fanInNodes := setAdd st.fanInNodes node
      temporalNodes := if hasTightWindow times then setAdd st.temporalNodes node
                       else st.temporalNodes }
  else st

/-- Body of the `detectSmurfing` loop for one node: merchants are skipped
entirely, then the fan-out and fan-in checks run in order. -/
def smurfStep (adj reverseAdj : List (String × List String))
    (txCounts : List (String × Nat)) (edgeTimestamps : List (String × List Int))
    (st : SmurfState) (node : String) : SmurfState :=
  if MERCHANT_THRESHOLD ≤ txCountOf txCounts node then st
  else smurfInStep reverseAdj edgeTimestamps (smurfOutStep adj edgeTimestamps st node) node

/-- `detectSmurfing`: returns the smurfing set (fan-out ∪ fan-in) and the
temporal-clustering set. -/
def detectSmurfing (adj reverseAdj : List (String × List String))
    (txCounts : List (String × Nat)) (edgeTimestamps : List (String × List Int)) :
    List String × List String :=
  let allNodes := dedupConcat (adj.map Prod.fst) (reverseAdj.map Prod.fst)
  let st := allNodes.foldl (smurfStep adj reverseAdj txCounts edgeTimestamps) ⟨[], [], []⟩
  (dedupConcat st.fanOutNodes st.fanInNodes, st.temporalNodes)

/-- Shell candidates: nodes whose total transaction count is 2 or 3, in
`txCounts` key order. -/
def shellCandidates (txCounts : List (String × Nat)) : List String :=
  (txCounts.filter (fun p => 2 ≤ p.2 ∧ p.2 ≤ 3)).map Prod.fst

/-- The greedy walk of `detectShellChains`: repeatedly extend the chain with
the first unvisited candidate successor of the current node.  The chain list
doubles as the visited set (they always hold the same nodes).  `fuel` bounds
the number of extensions; `shellCandidates.length` extensions always suffice
because every chain member is a distinct candidate. -/
def shellWalk (adj : List (String × List String)) (cands : List String) :
    Nat → String → List String → List String
  | 0, _, chain => chain
  | fuel + 1, current, chain =>
    match (adjGet adj current).find? (fun n => n ∉ chain ∧ n ∈ cands) with
    | none => chain
    | some next => shellWalk adj cands fuel next (chain ++ [next])

/-- Body of the `detectShellChains` loop for one candidate start node. -/
def shellStep (adj : List (String × List String)) (cands : List String)
    (acc : List String × List (List String)) (start : String) :
    List String × List (List String) :=
  if start ∈ acc.1 then acc
  else
    let chain := shellWalk adj cands cands.length start [start]
    if 3 ≤ chain.length then (chain.foldl setAdd acc.1, acc.2 ++ [chain]) else acc

/-- `detectShellChains`: returns the shell set and the list of chains. -/
def detectShellChains (adj : List (String × List String))
    (txCounts : List (String × Nat)) : List String × List (List String) :=
  let cands := shellCandidates txCounts
  cands.foldl (shellStep adj cands) ([], [])

/-- Population mean of a list of amounts (`0` on the empty list, where the
JS code produces `NaN` but never uses it: `edgeAmounts` is empty too). -/
def meanQ (l : List ℚ) : ℚ := l.sum / l.length

/-- Population variance of a list of amounts. -/
def varQ (l : List ℚ) : ℚ := ((l.map (fun a => (a - meanQ l) ^ 2)).sum) / l.length

/-- The outlier test `a > mean + 2·stddev`, expressed over `ℚ` in squared
form; `isOutlierAmt_iff_real` below shows this agrees with the real-number
comparison when the variance is nonnegative. -/
def isOutlierAmt (a mean variance : ℚ) : Bool :=
  decide (0 < a - mean) && decide (4 * variance < (a - mean) ^ 2)

/-- Left-to-right split of a character list on the two-character separator
`->`, as `String.prototype.split('->')` scans it. -/
def splitArrowAux : List Char → List Char → List (List Char)
  | [], acc => [acc.reverse]
  | '-' :: '>' :: rest, acc => acc.reverse :: splitArrowAux rest []
  | c :: rest, acc => splitArrowAux rest (c :: acc)

/-- `key.split('->')`. -/
def splitArrow (s : String) : List String :=
  (splitArrowAux s.toList []).map (fun l => String.mk l)

/-- `detectHighValueOutliers`: both endpoints of any edge carrying an amount
above `mean + 2·stddev` are flagged.  The endpoints are recovered from the
edge key exactly as the JS `key.split('->')` destructuring does. -/
def detectHighValueOutliers (edgeAmounts : List (String × List ℚ))
    (rows : List TxRow) : List String :=
  let allAmounts := rows.map (·.amount)
  let mean := meanQ allAmounts
  let variance := varQ allAmounts
  edgeAmounts.foldl (fun acc p =>
    if p.2.any (fun a => isOutlierAmt a mean variance) then
      let parts := splitArrow p.1
      setAdd (setAdd acc (parts.getD 0 "")) (parts.getD 1 "")
    else acc) []

/-- Insert a weight into a `Record<number, number>` modelled as an
association list kept in ascending numeric key order (JS objects iterate
integer-like keys in ascending order). -/
def bumpSorted (l : List (Nat × Nat)) (k : Nat) (w : Nat) : List (Nat × Nat) :=
  match l with
  | [] => [(k, w)]
  | (k', w') :: rest =>
      if k = k' then (k', w' + w) :: rest
      else if k < k' then (k, w) :: (k', w') :: rest
      else (k', w') :: bumpSorted rest k w

/-- Build the undirected weighted neighbor tables and the total edge weight
of `louvainCommunities`.  Every node starts with an empty table; each
directed edge `src→tgt` then adds 1 to `neighbors[src][tgt]` and 1 to
`neighbors[tgt][src]` (each guarded on the outer key existing, as in the
source) and 1 to the total weight. -/
def louvainNeighbors (nodes : List String) (adj : List (String × List String)) :
    List (String × List (String × Nat)) × Nat :=
  let init := nodes.map (fun n => (n, ([] : List (String × Nat))))
  adj.foldl (fun acc p =>
    p.2.foldl (fun (acc : List (String × List (String × Nat)) × Nat) tgt =>
      let ns := acc.1
      let existing := objGetD (objGetD ns p.1 []) tgt 0
      let ns1 := updIf ns p.1 (fun inner => upsert inner tgt 0 (fun _ => existing + 1))
      let ns2 := updIf ns1 tgt (fun inner => upsert inner p.1 0 (· + 1))
      (ns2, acc.2 + 1)) acc) (init, 0)

/-- Degree of a node: the sum of its neighbor-table weights. -/
def louvainDegree (neighbors : List (String × List (String × Nat))) (n : String) : Nat :=
  (objGetD neighbors n []).foldl (fun a p => a + p.2) 0

/-- One pass of the Louvain loop: visit every node in order and greedily move
it to the neighboring community of strictly greatest positive modularity
gain; returns the updated community table and whether any move happened. -/
def louvainPass (nodes : List String) (neighbors : List (String × List (String × Nat)))
    (m2 : ℚ) (comm0 : List (String × Nat)) : List (String × Nat) × Bool :=
  nodes.foldl (fun (acc : List (String × Nat) × Bool) node =>
    let comm := acc.1
    let currentComm := objGetD comm node 0
    let nodeNeighbors := objGetD neighbors node []
    let commWeights := nodeNeighbors.foldl
      (fun cw p => bumpSorted cw (objGetD comm p.1 0) p.2) []
    let kI := louvainDegree neighbors node
    let best := commWeights.foldl (fun (best : Nat × ℚ) p =>
      if p.1 = currentComm then best
      else
        let sumTot := nodes.foldl
          (fun s n => if objGetD comm n 0 = p.1 then s + louvainDegree neighbors n else s) 0
        let delta : ℚ := (p.2 : ℚ) - ((sumTot : ℚ) * (kI : ℚ)) / m2
        if best.2 < delta then (p.1, delta) else best) (currentComm, 0)
    if best.1 ≠ currentComm then (upsert comm node 0 (fun _ => best.1), true)
    else acc) (comm0, false)

/-- The `while (improved && iterations < MAX_ITER)` loop, fuelled by the
remaining iteration budget (`MAX_ITER = 10`). -/
def louvainLoop (nodes : List String) (neighbors : List (String × List (String × Nat)))
    (m2 : ℚ) : Nat → List (String × Nat) → List (String × Nat)
  | 0, comm => comm
  | fuel + 1, comm =>
      let r := louvainPass nodes neighbors m2 comm
      if r.2 then louvainLoop nodes neighbors m2 fuel r.1 else r.1

/-- Renumber community ids to sequential integers starting at 0 in order of
first encounter (the final loop of `louvainCommunities`, using a `Map`). -/
def renumberCommunities (nodes : List String) (comm : List (String × Nat)) :
    List (String × Nat) :=
  (nodes.foldl (fun (acc : List (Nat × Nat) × List (String × Nat)) node =>
    let c := objGetD comm node 0
    match alookup acc.1 c with
    | some id => (acc.1, acc.2 ++ [(node, id)])
    | none => (acc.1 ++ [(c, acc.1.length)], acc.2 ++ [(node, acc.1.length)]))
    ([], [])).2

/-- `louvainCommunities`: single-level Louvain modularity optimization over
the undirected projection of the graph, capped at 10 passes. -/
def louvainCommunities (adj reverseAdj : List (String × List String)) :
    List (String × Nat) :=
  let nodes := dedupConcat (adj.map Prod.fst) (reverseAdj.map Prod.fst)
  let nb := louvainNeighbors nodes adj
  let m2 : ℚ := if nb.2 * 2 = 0 then 1 else (nb.2 * 2 : Nat)
  let comm0 := nodes.enum.map (fun p => (p.2, p.1))
  renumberCommunities nodes (louvainLoop nodes nb.1 m2 10 comm0)

/-- Per-account analysis record.  `suspicion_score` is an integer clamped to
`[0, 100]`; `ring_id` is `none` until the ring grouper assigns it. -/
structure AccountAnalysis where
  account_id : String
  suspicion_score : Int
  detected_patterns : List String
  ring_id : Option String
  total_transactions : Nat
deriving DecidableEq

/-- A detected fraud ring. -/
structure FraudRing where
  ring_id : String
  member_accounts : List String
  pattern_type : String
  risk_score : ℚ
deriving DecidableEq

/-- A deduplicated display edge. -/
structure Edge where
  from_ : String
  to_ : String
  amount : ℚ
  suspicious : Bool
deriving DecidableEq

/-- The result summary (`processing_time_seconds` is environmental and
omitted). -/
structure Summary where
  total_accounts_analyzed : Nat
  suspicious_accounts_flagged : Nat
  fraud_rings_detected : Nat
deriving DecidableEq

/-- The full analysis result. -/
structure AnalysisResult where
  suspicious_accounts : List AccountAnalysis
  fraud_rings : List FraudRing
  all_accounts : List AccountAnalysis
  edges : List Edge
  communities : List (String × Nat)
  nodeDegrees : List (String × Nat)
  adj : List (String × List String)
  reverseAdj : List (String × List String)
  summary : Summary
deriving DecidableEq

/-- The set of nodes appearing in at least one detected cycle. -/
def cycleMembersOf (cycles : List (List String)) : List String :=
  cycles.foldl (fun acc c => c.foldl setAdd acc) []

/-- All node ids of the graph, `new Set([...Object.keys(adj),
...Object.keys(reverseAdj)])`. -/
def allNodesOf (g : Graph) : List String :=
  dedupConcat (g.adj.map Prod.fst) (g.reverseAdj.map Prod.fst)

/-- The scoring step of `runAnalysis` for one node: additive detector
contributions, clamped to `[0, 100]`, with pattern labels appended in the
fixed order cycles, smurfing, shell, temporal, high-value. -/
def scoreNode (cycles : List (List String))
    (cycleMembers smurfingNodes shellNodes temporalNodes highValueNodes : List String)
    (txCounts : List (String × Nat)) (node : String) : AccountAnalysis :=
  let cycleScore : Int := if node ∈ cycleMembers then 40 else 0
  let cyclePatterns : List String :=
    if node ∈ cycleMembers then
      (cycles.filter (fun c => node ∈ c)).map (fun c => "cycle_length_" ++ toString c.length)
    else []
  let smurfScore : Int := if node ∈ smurfingNodes then 25 else 0
  let shellScore : Int := if node ∈ shellNodes then 20 else 0
  let temporalScore : Int := if node ∈ temporalNodes then 10 else 0
  let hvScore : Int := if node ∈ highValueNodes then 5 else 0
  let raw : Int := cycleScore + smurfScore + shellScore + temporalScore + hvScore
  { account_id := node
    suspicion_score := min 100 (max 0 raw)
    detected_patterns :=
      cyclePatterns
        ++ (if node ∈ smurfingNodes then ["smurfing"] else [])
        ++ (if node ∈ shellNodes then ["shell_chain"] else [])
        ++ (if node ∈ temporalNodes then ["temporal_clustering"] else [])
        ++ (if node ∈ highValueNodes then ["high_value_outlier"] else [])
    ring_id := none
    total_transactions := txCountOf txCounts node }

/-- All scored accounts, in `allNodes` order, before ring assignment. -/
def accountsPreRing (rows : List TxRow) : List AccountAnalysis :=
  let g := buildGraph rows
  let cycles := detectCycles g.adj 5
  let cycleMembers := cycleMembersOf cycles
  let sm := detectSmurfing g.adj g.reverseAdj g.txCounts g.edgeTimestamps
  let sh := detectShellChains g.adj g.txCounts
  let hv := detectHighValueOutliers g.edgeAmounts rows
  (allNodesOf g).map
    (scoreNode cycles cycleMembers sm.1 sh.1 sm.2 hv g.txCounts)

/-- Path-compressed union-find lookup without the compression (which does
not change any root): follow parent pointers, treating an absent binding or
a self-binding as a root.  `fuel = parent.length + 1` always suffices since
the parent relation built by `ufUnion` is acyclic. -/
def ufFind (parent : List (String × String)) : Nat → String → String
  | 0, x => x
  | fuel + 1, x =>
      match alookup parent x with
      | none => x
      | some p => if p = x then x else ufFind parent fuel p

/-- The root of `x` in the union-find forest. -/
def ufRoot (parent : List (String × String)) (x : String) : String :=
  ufFind parent (parent.length + 1) x

/-- `union(a, b)`: link the root of `a` under the root of `b`. -/
def ufUnion (parent : List (String × String)) (a b : String) : List (String × String) :=
  let pa := ufRoot parent a
  let pb := ufRoot parent b
  if pa = pb then parent else upsert parent pa "" (fun _ => pb)

/-- Union every non-first member of a group to the first member. -/
def unionGroup (parent : List (String × String)) (g : List String) :
    List (String × String) :=
  match g with
  | [] => parent
  | h :: t => t.foldl (fun p x => ufUnion p h x) parent

/-- The union-find parent map after unioning all cycles and shell chains. -/
def ufParentOf (rows : List TxRow) : List (String × String) :=
  let g := buildGraph rows
  let cycles := detectCycles g.adj 5
  let chains := (detectShellChains g.adj g.txCounts).2
  (cycles ++ chains).foldl unionGroup []

/-- Partition of the suspicious accounts (score > 0) by union-find root, as
an insertion-ordered map from root to member ids. -/
def ringGroupsOf (rows : List TxRow) : List (String × List String) :=
  let parent := ufParentOf rows
  ((accountsPreRing rows).filter (fun a => 0 < a.suspicion_score)).foldl
    (fun gs a => upsert gs (ufRoot parent a.account_id) [] (fun v => v ++ [a.account_id]))
    []

/-- `String(n).padStart(3, '0')`. -/
def pad3 (n : Nat) : String :=
  let s := toString n
  if s.length < 3 then String.mk (List.replicate (3 - s.length) '0') ++ s else s

/-- The suspicion score of an account id in a scored account list. -/
def scoreOf (accounts : List AccountAnalysis) (id : String) : Int :=
  ((accounts.find? (fun a => a.account_id = id)).map (·.suspicion_score)).getD 0

/-- The detected patterns of an account id in a scored account list. -/
def patternsOf (accounts : List AccountAnalysis) (id : String) : List String :=
  ((accounts.find? (fun a => a.account_id = id)).map (·.detected_patterns)).getD []

/-- `Math.round(q * 10) / 10`: round to one decimal place, halves up. -/
def round1 (q : ℚ) : ℚ := (⌊q * 10 + 1 / 2⌋ : ℚ) / 10

/-- Build the fraud ring for one root group.  `idx` is the 1-based ring
index.  Solo groups use the member's own score and first pattern; larger
groups use the rounded mean score and the comma-joined distinct patterns in
first-seen member order. -/
def mkRing (accounts : List AccountAnalysis) (idx : Nat) (members : List String) :
    FraudRing :=
  let ringId := "RING_" ++ pad3 idx
  if members.length < 2 then
    { ring_id := ringId
      member_accounts := members
      pattern_type := (patternsOf accounts (members.headD "")).headD "anomaly"
      risk_score := (scoreOf accounts (members.headD "") : ℚ) }
  else
    { ring_id := ringId
      member_accounts := members
      pattern_type := String.intercalate ", "
        (members.foldl (fun ps m => (patternsOf accounts m).foldl setAdd ps) [])
      risk_score := round1 ((members.map (fun m => (scoreOf accounts m : ℚ))).sum
        / members.length) }

/-- Build one ring per root group, assigning sequential 1-based indices
(`ringIdx` in the source starts at 1 and increments for every group). -/
def mkRings (accounts : List AccountAnalysis) (idx : Nat) :
    List (String × List String) → List FraudRing
  | [] => []
  | g :: gs => mkRing accounts idx g.2 :: mkRings accounts (idx + 1) gs

/-- The fraud rings in group-iteration order, before the final sort.  Ring
ids are assigned sequentially starting at `RING_001`. -/
def rawRingsOf (rows : List TxRow) : List FraudRing :=
  mkRings (accountsPreRing rows) 1 (ringGroupsOf rows)

/-- Ring-id assignment for one account: the JS code mutates each member
account's `ring_id` exactly once while building its ring; functionally, the
account receives the id of the first — and, as proved below, only — ring
listing it as a member. -/
def assignRing (rings : List FraudRing) (a : AccountAnalysis) : AccountAnalysis :=
  match rings.find? (fun r => a.account_id ∈ r.member_accounts) with
  | some r => { a with ring_id := some r.ring_id }
  | none => a

/-- The accounts after the ring grouper assigns `ring_id`. -/
def accountsFinal (rows : List TxRow) : List AccountAnalysis :=
  (accountsPreRing rows).map (assignRing (rawRingsOf rows))

/-- One step of the display-edge loop: skip already-seen keys, otherwise
record the edge, flagged suspicious when either endpoint scores above 30. -/
def edgeStep (accounts : List AccountAnalysis) (acc : List String × List Edge)
    (row : TxRow) : List String × List Edge :=
  let key := edgeKey row.sender_id row.receiver_id
  if key ∈ acc.1 then acc
  else
    (acc.1 ++ [key], acc.2 ++ [{
      from_ := row.sender_id
      to_ := row.receiver_id
      amount := row.amount
      suspicious := decide (30 < scoreOf accounts row.sender_id)
        || decide (30 < scoreOf accounts row.receiver_id) }])

/-- The deduplicated display edge list: first occurrence of each directed
sender→receiver pair. -/
def buildEdges (rows : List TxRow) (accounts : List AccountAnalysis) : List Edge :=
  (rows.foldl (edgeStep accounts) ([], [])).2

/-- `runAnalysis`: the full pipeline. -/
def runAnalysis (rows : List TxRow) : AnalysisResult :=
  let g := buildGraph rows
  let allNodes := allNodesOf g
  let accounts := accountsFinal rows
  let rings := rawRingsOf rows
  let suspicious := accounts.filter (fun a => 0 < a.suspicion_score)
  { suspicious_accounts :=
      stableSort (fun a b => b.suspicion_score ≤ a.suspicion_score) suspicious
    fraud_rings := stableSort (fun a b => b.risk_score ≤ a.risk_score) rings
    all_accounts := accounts
    edges := buildEdges rows accounts
    communities := louvainCommunities g.adj g.reverseAdj
    nodeDegrees := allNodes.map (fun n =>
      (n, (adjGet g.adj n).length + (adjGet g.reverseAdj n).length))
    adj := g.adj
    reverseAdj := g.reverseAdj
    summary :=
      { total_accounts_analyzed := allNodes.length
        suspicious_accounts_flagged :=
          (suspicious.filter (fun a => 40 ≤ a.suspicion_score)).length
        fraud_rings_detected :=
          (rings.filter (fun r => 2 ≤ r.member_accounts.length)).length } }

/-! ### Concrete test inputs -/

/-- Shorthand for a transaction with unit amount and timestamp 0. -/
def tx0 (s r : String) : TxRow := ⟨s, r, 1, 0⟩

/-- The synthetic 3-cycle `A→B→C→A` of the spec's test scenario. -/
def cyc3Rows : List TxRow := [tx0 "A" "B", tx0 "B" "C", tx0 "C" "A"]

/-- A transaction list whose shell-chain detection is order-sensitive:
`Y` has two candidate successors `Z` and `W`, and the greedy walk follows
whichever of `Y→Z`, `Y→W` was inserted into `adj[Y]` first. -/
def permRows1 : List TxRow :=
  [tx0 "X" "Y", tx0 "Y" "Z", tx0 "Y" "W", tx0 "Z" "P", tx0 "W" "Q", tx0 "A" "X"]

/-- `permRows1` with the second and third transactions swapped. -/
def permRows2 : List TxRow :=
  [tx0 "X" "Y", tx0 "Y" "W", tx0 "Y" "Z", tx0 "Z" "P", tx0 "W" "Q", tx0 "A" "X"]

/-- Fifty self-transactions of account `M`, giving it a total transaction
count of 100 (each row counts it once as sender and once as receiver). -/
def merchantRows : List TxRow := List.replicate 50 (tx0 "M" "M")

/-! ## Basic lemmas about the association-list and set primitives -/

theorem mem_setAdd {l : List String} {x y : String} : y ∈ setAdd l x ↔ y ∈ l ∨ y = x := by
  unfold setAdd
  split
  · rename_i hx
    constructor
    · exact fun h => Or.inl h
    · rintro (h | rfl)
      · exact h
      · exact hx
  · simp

theorem mem_foldl_setAdd (l init : List String) (y : String) :
    y ∈ l.foldl setAdd init ↔ y ∈ init ∨ y ∈ l := by
  induction l generalizing init with
  | nil => simp
  | cons a rest ih =>
      rw [List.foldl_cons, ih, mem_setAdd]
      simp only [List.mem_cons]
      tauto

theorem mem_dedupConcat {a b : List String} {y : String} :
    y ∈ dedupConcat a b ↔ y ∈ a ∨ y ∈ b := by
  unfold dedupConcat
  rw [mem_foldl_setAdd]
  simp

theorem nodup_setAdd {l : List String} {x : String} (h : l.Nodup) : (setAdd l x).Nodup := by
  unfold setAdd
  split
  · exact h
  · rename_i hx
    rw [List.nodup_append]
    refine ⟨h, List.nodup_singleton x, ?_⟩
    intro a ha hax
    rw [List.mem_singleton] at hax
    exact hx (hax ▸ ha)

theorem nodup_foldl_setAdd (l init : List String) (h : init.Nodup) :
    (l.foldl setAdd init).Nodup := by
  induction l generalizing init with
  | nil => exact h
  | cons a rest ih => exact ih _ (nodup_setAdd h)

theorem nodup_dedupConcat (a b : List String) : (dedupConcat a b).Nodup :=
  nodup_foldl_setAdd _ _ List.nodup_nil

theorem alookup_upsert {α β : Type} [DecidableEq α] (m : List (α × β)) (k : α) (d : β)
    (f : β → β) (q : α) :
    alookup (upsert m k d f) q
      = if k = q then some (f ((alookup m k).getD d)) else alookup m q := by
  induction m with
  | nil =>
      simp only [upsert, alookup]
      by_cases h : k = q <;> simp [h]
  | cons p rest ih =>
      obtain ⟨k', v⟩ := p
      simp only [upsert]
      by_cases hk : k' = k
      · subst hk
        by_cases hq : k' = q
        · subst hq
          simp [alookup]
        · have hqk : ¬ k' = q := hq
          simp [alookup, hqk]
      · by_cases hq : k' = q
        · subst hq
          have h1 : ¬ k = k' := fun h => hk h.symm
          simp [alookup, hk, h1]
        · simp [alookup, hk, hq, ih]

theorem keys_upsert {α β : Type} [DecidableEq α] (m : List (α × β)) (k : α) (d : β)
    (f : β → β) :
    (upsert m k d f).map Prod.fst
      = if k ∈ m.map Prod.fst then m.map Prod.fst else m.map Prod.fst ++ [k] := by
  induction m with
  | nil => simp [upsert]
  | cons p rest ih =>
      obtain ⟨k', v⟩ := p
      simp only [upsert]
      by_cases hk : k' = k
      · subst hk
        simp
      · have h1 : ¬ k = k' := fun h => hk h.symm
        simp only [if_neg hk, List.map_cons, ih, List.mem_cons, h1, false_or]
        split <;> simp

/-! ## Membership characterization of the built adjacency structures -/

theorem adjGet_upsert_setAdd (adj : List (String × List String)) (k r n : String) :
    adjGet (upsert adj k [] (fun v => setAdd v r)) n
      = if k = n then setAdd (adjGet adj k) r else adjGet adj n := by
  unfold adjGet
  rw [alookup_upsert]
  split <;> rfl

theorem mem_adj_buildGraphStep (g : Graph) (row : TxRow) (s t : String) :
    t ∈ adjGet (buildGraphStep g row).adj s
      ↔ t ∈ adjGet g.adj s ∨ (row.sender_id = s ∧ row.receiver_id = t) := by
  show t ∈ adjGet (upsert g.adj row.sender_id [] (fun v => setAdd v row.receiver_id)) s ↔ _
  rw [adjGet_upsert_setAdd]
  by_cases h : row.sender_id = s
  · subst h
    rw [if_pos rfl, mem_setAdd]
    tauto
  · rw [if_neg h]
    tauto

theorem mem_reverseAdj_buildGraphStep (g : Graph) (row : TxRow) (s t : String) :
    t ∈ adjGet (buildGraphStep g row).reverseAdj s
      ↔ t ∈ adjGet g.reverseAdj s ∨ (row.receiver_id = s ∧ row.sender_id = t) := by
  show t ∈ adjGet (upsert g.reverseAdj row.receiver_id [] (fun v => setAdd v row.sender_id)) s ↔ _
  rw [adjGet_upsert_setAdd]
  by_cases h : row.receiver_id = s
  · subst h
    rw [if_pos rfl, mem_setAdd]
    tauto
  · rw [if_neg h]
    tauto

theorem mem_adj_buildGraph_aux (rows : List TxRow) (g : Graph) (s t : String) :
    t ∈ adjGet (rows.foldl buildGraphStep g).adj s
      ↔ t ∈ adjGet g.adj s ∨ ∃ row ∈ rows, row.sender_id = s ∧ row.receiver_id = t := by
  induction rows generalizing g with
  | nil => simp
  | cons row rest ih =>
      rw [List.foldl_cons, ih, mem_adj_buildGraphStep]
      simp only [List.mem_cons]
      constructor
      · rintro ((h | h) | ⟨r, hr, h⟩)
        · exact Or.inl h
        · exact Or.inr ⟨row, Or.inl rfl, h⟩
        · exact Or.inr ⟨r, Or.inr hr, h⟩
      · rintro (h | ⟨r, (rfl | hr), h⟩)
        · exact Or.inl (Or.inl h)
        · exact Or.inl (Or.inr h)
        · exact Or.inr ⟨r, hr, h⟩

theorem mem_reverseAdj_buildGraph_aux (rows : List TxRow) (g : Graph) (s t : String) :
    t ∈ adjGet (rows.foldl buildGraphStep g).reverseAdj s
      ↔ t ∈ adjGet g.reverseAdj s ∨ ∃ row ∈ rows, row.receiver_id = s ∧ row.sender_id = t := by
  induction rows generalizing g with
  | nil => simp
  | cons row rest ih =>
      rw [List.foldl_cons, ih, mem_reverseAdj_buildGraphStep]
      simp only [List.mem_cons]
      constructor
      · rintro ((h | h) | ⟨r, hr, h⟩)
        · exact Or.inl h
        · exact Or.inr ⟨row, Or.inl rfl, h⟩
        · exact Or.inr ⟨r, Or.inr hr, h⟩
      · rintro (h | ⟨r, (rfl | hr), h⟩)
        · exact Or.inl (Or.inl h)
        · exact Or.inl (Or.inr h)
        · exact Or.inr ⟨r, hr, h⟩

theorem mem_adj_buildGraph (rows : List TxRow) (s t : String) :
    t ∈ adjGet (buildGraph rows).adj s
      ↔ ∃ row ∈ rows, row.sender_id = s ∧ row.receiver_id = t := by
  unfold buildGraph
  rw [mem_adj_buildGraph_aux]
  simp [adjGet, alookup]

theorem mem_reverseAdj_buildGraph (rows : List TxRow) (s t : String) :
    t ∈ adjGet (buildGraph rows).reverseAdj s
      ↔ ∃ row ∈ rows, row.receiver_id = s ∧ row.sender_id = t := by
  unfold buildGraph
  rw [mem_reverseAdj_buildGraph_aux]
  simp [adjGet, alookup]

/-! ## Claim C1 -/

/-- C1, counterexample: the claim "running the full analysis on a permuted
transaction list yields the same suspicion score for every account" is
false.  `permRows2` is `permRows1` with two rows swapped, yet account `Z`
scores 20 (shell chain) on the first ordering and 0 on the second: the
greedy shell-chain walk follows whichever successor of `Y` was inserted
first. -/
theorem C1_counterexample :
    permRows1.Perm permRows2
    ∧ scoreOf (runAnalysis permRows1).all_accounts "Z" = 20
    ∧ scoreOf (runAnalysis permRows2).all_accounts "Z" = 0 := by
  refine ⟨?_, by decide, by decide⟩
  show List.Perm (_ :: _ :: _ :: _) (_ :: _ :: _ :: _)
  exact List.Perm.cons _ (List.Perm.swap _ _ _)

/-- C1, amended: permuting the input transaction list leaves the adjacency
and reverse-adjacency *sets* unchanged (membership is order-invariant);
the suspicion scores and ring membership, however, may change, because the
greedy shell-chain detector is sensitive to insertion order
(see `C1_counterexample`). -/
theorem C1_adjacency_perm_invariant (rows1 rows2 : List TxRow)
    (hperm : rows1.Perm rows2) (s t : String) :
    (t ∈ adjGet (buildGraph rows1).adj s ↔ t ∈ adjGet (buildGraph rows2).adj s)
    ∧ (t ∈ adjGet (buildGraph rows1).reverseAdj s
        ↔ t ∈ adjGet (buildGraph rows2).reverseAdj s) := by
  constructor
  · rw [mem_adj_buildGraph, mem_adj_buildGraph]
    constructor
    · rintro ⟨r, hr, h⟩
      exact ⟨r, hperm.mem_iff.mp hr, h⟩
    · rintro ⟨r, hr, h⟩
      exact ⟨r, hperm.mem_iff.mpr hr, h⟩
  · rw [mem_reverseAdj_buildGraph, mem_reverseAdj_buildGraph]
    constructor
    · rintro ⟨r, hr, h⟩
      exact ⟨r, hperm.mem_iff.mp hr, h⟩
    · rintro ⟨r, hr, h⟩
      exact ⟨r, hperm.mem_iff.mpr hr, h⟩

/-- Witness for `C1_adjacency_perm_invariant` at a concrete permuted pair. -/
theorem C1_adjacency_perm_invariant_witness :
    permRows1.Perm permRows2
    ∧ ("Y" ∈ adjGet (buildGraph permRows1).adj "X"
        ↔ "Y" ∈ adjGet (buildGraph permRows2).adj "X") := by
  have hperm : permRows1.Perm permRows2 := by decide
  exact ⟨hperm, (C1_adjacency_perm_invariant permRows1 permRows2 hperm "X" "Y").1⟩

/-! ## Claim C6 -/

/-- C6: the empty transaction list produces a valid empty result: zero
accounts analyzed and empty suspicious-account, ring, account, edge and
community collections. -/
theorem C6_empty_input :
    (runAnalysis []).summary.total_accounts_analyzed = 0
    ∧ (runAnalysis []).suspicious_accounts = []
    ∧ (runAnalysis []).fraud_rings = []
    ∧ (runAnalysis []).all_accounts = []
    ∧ (runAnalysis []).edges = []
    ∧ (runAnalysis []).communities = [] := by
  decide

/-! ## Justification of the squared-form outlier test -/

/-- The squared-form outlier test used in the embedding agrees with the
source's real-number comparison `a > mean + 2·stddev` (with
`stddev = √variance`) whenever the variance is nonnegative, as a population
variance always is. -/
theorem isOutlierAmt_iff_real (a mean variance : ℚ) (hv : 0 ≤ variance) :
    isOutlierAmt a mean variance = true
      ↔ (mean : ℝ) + 2 * Real.sqrt (variance : ℝ) < (a : ℝ) := by
  unfold isOutlierAmt
  rw [Bool.and_eq_true, decide_eq_true_iff, decide_eq_true_iff]
  have hv' : (0 : ℝ) ≤ (variance : ℝ) := by exact_mod_cast hv
  have hs : Real.sqrt ((4 : ℝ) * variance) = 2 * Real.sqrt (variance : ℝ) := by
    rw [show (4 : ℝ) * variance = 2 ^ 2 * variance by ring,
      Real.sqrt_mul (by positivity) variance, Real.sqrt_sq (by norm_num)]
  constructor
  · rintro ⟨h1, h2⟩
    have h1' : (0 : ℝ) < (a : ℝ) - mean := by
      have := (Rat.cast_lt (K := ℝ)).mpr h1
      push_cast at this
      linarith
    have h2' : (4 : ℝ) * variance < ((a : ℝ) - mean) ^ 2 := by
      have := (Rat.cast_lt (K := ℝ)).mpr h2
      push_cast at this
      linarith
    have := (Real.sqrt_lt' h1').mpr h2'
    rw [hs] at this
    linarith
  · intro h
    have hsq : (0 : ℝ) ≤ 2 * Real.sqrt (variance : ℝ) := by positivity
    have h1' : (0 : ℝ) < (a : ℝ) - mean := by linarith
    have h2' : (4 : ℝ) * variance < ((a : ℝ) - mean) ^ 2 := by
      have hlt : Real.sqrt ((4 : ℝ) * variance) < (a : ℝ) - mean := by
        rw [hs]
        linarith
      exact (Real.sqrt_lt' h1').mp hlt
    constructor
    · exact_mod_cast (by push_cast; linarith : ((0 : ℚ) : ℝ) < ((a - mean : ℚ) : ℝ))
    · exact_mod_cast
        (by push_cast; linarith : ((4 * variance : ℚ) : ℝ) < (((a - mean) ^ 2 : ℚ) : ℝ))

/-- The population variance computed by the outlier detector is
nonnegative. -/
theorem varQ_nonneg (l : List ℚ) : 0 ≤ varQ l := by
  unfold varQ
  apply div_nonneg
  · apply List.sum_nonneg
    intro x hx
    rw [List.mem_map] at hx
    obtain ⟨a, _, rfl⟩ := hx
    positivity
  · positivity

/-! ## Projections of `runAnalysis` and preservation under ring assignment -/

theorem runAnalysis_all_accounts (rows : List TxRow) :
    (runAnalysis rows).all_accounts = accountsFinal rows := rfl

theorem runAnalysis_edges (rows : List TxRow) :
    (runAnalysis rows).edges = buildEdges rows (accountsFinal rows) := rfl

theorem runAnalysis_fraud_rings (rows : List TxRow) :
    (runAnalysis rows).fraud_rings
      = stableSort (fun a b => b.risk_score ≤ a.risk_score) (rawRingsOf rows) := rfl

theorem assignRing_account_id (rings : List FraudRing) (a : AccountAnalysis) :
    (assignRing rings a).account_id = a.account_id := by
  unfold assignRing
  rcases h : rings.find? (fun r => a.account_id ∈ r.member_accounts) with _ | r <;>
    rw [h]

theorem assignRing_suspicion_score (rings : List FraudRing) (a : AccountAnalysis) :
    (assignRing rings a).suspicion_score = a.suspicion_score := by
  unfold assignRing
  rcases h : rings.find? (fun r => a.account_id ∈ r.member_accounts) with _ | r <;>
    rw [h]

theorem assignRing_detected_patterns (rings : List FraudRing) (a : AccountAnalysis) :
    (assignRing rings a).detected_patterns = a.detected_patterns := by
  unfold assignRing
  rcases h : rings.find? (fun r => a.account_id ∈ r.member_accounts) with _ | r <;>
    rw [h]

theorem scoreNode_score_eq (cycles : List (List String))
    (cm sm sh tm hv : List String) (txc : List (String × Nat)) (node : String) :
    (scoreNode cycles cm sm sh tm hv txc node).suspicion_score
      = min 100 (max 0 ((if node ∈ cm then (40 : Int) else 0)
          + (if node ∈ sm then 25 else 0) + (if node ∈ sh then 20 else 0)
          + (if node ∈ tm then 10 else 0) + (if node ∈ hv then 5 else 0))) := rfl

/-! ## Claim C2 -/

/-- C2: every reported suspicion score is the clamp `min(100, max(0, s))`
of the additive detector signal `s` (40 cycle + 25 smurfing + 20 shell +
10 temporal + 5 high-value), lies in `[0, 100]`, and an account matched by
all five detectors would report exactly 100. -/
theorem C2_score_formula (rows : List TxRow) (acc : AccountAnalysis)
    (hacc : acc ∈ (runAnalysis rows).all_accounts) :
    acc.suspicion_score
        = min 100 (max 0
            ((if acc.account_id ∈ cycleMembersOf (detectCycles (buildGraph rows).adj 5)
                then (40 : Int) else 0)
              + (if acc.account_id ∈ (detectSmurfing (buildGraph rows).adj
                    (buildGraph rows).reverseAdj (buildGraph rows).txCounts
                    (buildGraph rows).edgeTimestamps).1 then 25 else 0)
              + (if acc.account_id ∈ (detectShellChains (buildGraph rows).adj
                    (buildGraph rows).txCounts).1 then 20 else 0)
              + (if acc.account_id ∈ (detectSmurfing (buildGraph rows).adj
                    (buildGraph rows).reverseAdj (buildGraph rows).txCounts
                    (buildGraph rows).edgeTimestamps).2 then 10 else 0)
              + (if acc.account_id ∈ detectHighValueOutliers (buildGraph rows).edgeAmounts rows
                  then 5 else 0)))
    ∧ 0 ≤ acc.suspicion_score ∧ acc.suspicion_score ≤ 100
    ∧ ((acc.account_id ∈ cycleMembersOf (detectCycles (buildGraph rows).adj 5)
        ∧ acc.account_id ∈ (detectSmurfing (buildGraph rows).adj (buildGraph rows).reverseAdj
            (buildGraph rows).txCounts (buildGraph rows).edgeTimestamps).1
        ∧ acc.account_id ∈ (detectShellChains (buildGraph rows).adj (buildGraph rows).txCounts).1
        ∧ acc.account_id ∈ (detectSmurfing (buildGraph rows).adj (buildGraph rows).reverseAdj
            (buildGraph rows).txCounts (buildGraph rows).edgeTimestamps).2
        ∧ acc.account_id ∈ detectHighValueOutliers (buildGraph rows).edgeAmounts rows)
        → acc.suspicion_score = 100) := by
  rw [runAnalysis_all_accounts] at hacc
  unfold accountsFinal at hacc
  rw [List.mem_map] at hacc
  obtain ⟨a0, ha0, rfl⟩ := hacc
  unfold accountsPreRing at ha0
  rw [List.mem_map] at ha0
  obtain ⟨node, _, rfl⟩ := ha0
  rw [assignRing_suspicion_score, assignRing_account_id]
  rw [scoreNode_score_eq]
  have hid : (scoreNode (detectCycles (buildGraph rows).adj 5)
      (cycleMembersOf (detectCycles (buildGraph rows).adj 5))
      (detectSmurfing (buildGraph rows).adj (buildGraph rows).reverseAdj
        (buildGraph rows).txCounts (buildGraph rows).edgeTimestamps).1
      (detectShellChains (buildGraph rows).adj (buildGraph rows).txCounts).1
      (detectSmurfing (buildGraph rows).adj (buildGraph rows).reverseAdj
        (buildGraph rows).txCounts (buildGraph rows).edgeTimestamps).2
      (detectHighValueOutliers (buildGraph rows).edgeAmounts rows)
      (buildGraph rows).txCounts node).account_id = node := rfl
  rw [hid]
  refine ⟨rfl, ?_, ?_, ?_⟩
  · omega
  · omega
  · rintro ⟨h1, h2, h3, h4, h5⟩
    rw [if_pos h1, if_pos h2, if_pos h3, if_pos h4, if_pos h5]
    rfl

/-- Witness for `C2_score_formula`: the account `A` of the synthetic
3-cycle (score 60 = 40 cycle + 20 shell) is in the result and satisfies the
clamp formula and bounds. -/
theorem C2_score_formula_witness :
    (⟨"A", 60, ["cycle_length_3", "shell_chain"], some "RING_001", 2⟩ : AccountAnalysis)
        ∈ (runAnalysis cyc3Rows).all_accounts
    ∧ (0 : Int) ≤ 60 ∧ (60 : Int) ≤ 100 := by
  have hacc : (⟨"A", 60, ["cycle_length_3", "shell_chain"], some "RING_001", 2⟩ : AccountAnalysis)
      ∈ (runAnalysis cyc3Rows).all_accounts := by decide
  have h := C2_score_formula cyc3Rows _ hacc
  exact ⟨hacc, h.2.1, h.2.2.1⟩

/-! ## Claim C5 -/

theorem smurfOutStep_mem (adj : List (String × List String))
    (ets : List (String × List Int)) (st : SmurfState) (n x : String) :
    (x ∈ (smurfOutStep adj ets st n).fanOutNodes → x ∈ st.fanOutNodes ∨ x = n)
    ∧ (smurfOutStep adj ets st n).fanInNodes = st.fanInNodes
    ∧ (x ∈ (smurfOutStep adj ets st n).temporalNodes → x ∈ st.temporalNodes ∨ x = n) := by
  by_cases hc : THRESHOLD ≤ (adjGet adj n).length
  · simp only [smurfOutStep, if_pos hc]
    refine ⟨fun h => mem_setAdd.mp h, trivial, fun h => ?_⟩
    revert h
    split
    · exact fun h => mem_setAdd.mp h
    · exact fun h => Or.inl h
  · simp only [smurfOutStep, if_neg hc]
    exact ⟨fun h => Or.inl h, trivial, fun h => Or.inl h⟩

theorem smurfInStep_mem (radj : List (String × List String))
    (ets : List (String × List Int)) (st : SmurfState) (n x : String) :
    (x ∈ (smurfInStep radj ets st n).fanInNodes → x ∈ st.fanInNodes ∨ x = n)
    ∧ (smurfInStep radj ets st n).fanOutNodes = st.fanOutNodes
    ∧ (x ∈ (smurfInStep radj ets st n).temporalNodes → x ∈ st.temporalNodes ∨ x = n) := by
  by_cases hc : THRESHOLD ≤ (adjGet radj n).length
  · simp only [smurfInStep, if_pos hc]
    refine ⟨fun h => mem_setAdd.mp h, trivial, fun h => ?_⟩
    revert h
    split
    · exact fun h => mem_setAdd.mp h
    · exact fun h => Or.inl h
  · simp only [smurfInStep, if_neg hc]
    exact ⟨fun h => Or.inl h, trivial, fun h => Or.inl h⟩

theorem smurfStep_good (adj radj : List (String × List String))
    (txc : List (String × Nat)) (ets : List (String × List Int))
    (st : SmurfState) (n : String)
    (h : ∀ x, (x ∈ st.fanOutNodes ∨ x ∈ st.fanInNodes ∨ x ∈ st.temporalNodes)
        → txCountOf txc x < MERCHANT_THRESHOLD) :
    ∀ x, (x ∈ (smurfStep adj radj txc ets st n).fanOutNodes
        ∨ x ∈ (smurfStep adj radj txc ets st n).fanInNodes
        ∨ x ∈ (smurfStep adj radj txc ets st n).temporalNodes)
      → txCountOf txc x < MERCHANT_THRESHOLD := by
  unfold smurfStep
  split
  · exact h
  · rename_i hm
    rw [Nat.not_le] at hm
    intro x hx
    set st1 := smurfOutStep adj ets st n with hst1
    have hgood1 : ∀ y, (y ∈ st1.fanOutNodes ∨ y ∈ st1.fanInNodes ∨ y ∈ st1.temporalNodes)
        → txCountOf txc y < MERCHANT_THRESHOLD := by
      intro y hy
      obtain ⟨ho, hi, ht⟩ := smurfOutStep_mem adj ets st n y
      rcases hy with hy | hy | hy
      · rcases ho hy with hy' | rfl
        · exact h y (Or.inl hy')
        · exact hm
      · rw [hi] at hy
        exact h y (Or.inr (Or.inl hy))
      · rcases ht hy with hy' | rfl
        · exact h y (Or.inr (Or.inr hy'))
        · exact hm
    obtain ⟨hi2, ho2, ht2⟩ := smurfInStep_mem radj ets st1 n x
    rcases hx with hx | hx | hx
    · rw [ho2] at hx
      exact hgood1 x (Or.inl hx)
    · rcases hi2 hx with hx' | rfl
      · exact hgood1 x (Or.inr (Or.inl hx'))
      · exact hm
    · rcases ht2 hx with hx' | rfl
      · exact hgood1 x (Or.inr (Or.inr hx'))
      · exact hm

theorem smurfFold_good (adj radj : List (String × List String))
    (txc : List (String × Nat)) (ets : List (String × List Int))
    (l : List String) (st : SmurfState)
    (h : ∀ x, (x ∈ st.fanOutNodes ∨ x ∈ st.fanInNodes ∨ x ∈ st.temporalNodes)
        → txCountOf txc x < MERCHANT_THRESHOLD) :
    ∀ x, (x ∈ (l.foldl (smurfStep adj radj txc ets) st).fanOutNodes
        ∨ x ∈ (l.foldl (smurfStep adj radj txc ets) st).fanInNodes
        ∨ x ∈ (l.foldl (smurfStep adj radj txc ets) st).temporalNodes)
      → txCountOf txc x < MERCHANT_THRESHOLD := by
  induction l generalizing st with
  | nil => exact h
  | cons n rest ih =>
      rw [List.foldl_cons]
      exact ih _ (smurfStep_good adj radj txc ets st n h)

/-- C5: a node whose total transaction count reaches `MERCHANT_THRESHOLD`
(100) is excluded from both the smurfing set and the temporal-clustering
set, regardless of its fan-out or fan-in shape. -/
theorem C5_merchant_exclusion (adj reverseAdj : List (String × List String))
    (txCounts : List (String × Nat)) (edgeTimestamps : List (String × List Int))
    (node : String) (hm : MERCHANT_THRESHOLD ≤ txCountOf txCounts node) :
    node ∉ (detectSmurfing adj reverseAdj txCounts edgeTimestamps).1
    ∧ node ∉ (detectSmurfing adj reverseAdj txCounts edgeTimestamps).2 := by
  have hgood := smurfFold_good adj reverseAdj txCounts edgeTimestamps
    (dedupConcat (adj.map Prod.fst) (reverseAdj.map Prod.fst)) ⟨[], [], []⟩
    (by intro x hx; rcases hx with hx | hx | hx <;> simp at hx)
  constructor
  · intro hmem
    unfold detectSmurfing at hmem
    rw [mem_dedupConcat] at hmem
    rcases hmem with hmem | hmem
    · exact absurd hm (Nat.not_le.mpr (hgood node (Or.inl hmem)))
    · exact absurd hm (Nat.not_le.mpr (hgood node (Or.inr (Or.inl hmem))))
  · intro hmem
    unfold detectSmurfing at hmem
    exact absurd hm (Nat.not_le.mpr (hgood node (Or.inr (Or.inr hmem))))

/-- Witness for `C5_merchant_exclusion`: account `M` with 100 total
transactions (50 self-transfers) is flagged by neither set. -/
theorem C5_merchant_exclusion_witness :
    MERCHANT_THRESHOLD ≤ txCountOf (buildGraph merchantRows).txCounts "M"
    ∧ "M" ∉ (detectSmurfing (buildGraph merchantRows).adj (buildGraph merchantRows).reverseAdj
        (buildGraph merchantRows).txCounts (buildGraph merchantRows).edgeTimestamps).1 := by
  have hm : MERCHANT_THRESHOLD ≤ txCountOf (buildGraph merchantRows).txCounts "M" := by decide
  exact ⟨hm, (C5_merchant_exclusion (buildGraph merchantRows).adj
    (buildGraph merchantRows).reverseAdj (buildGraph merchantRows).txCounts
    (buildGraph merchantRows).edgeTimestamps "M" hm).1⟩

/-! ## Claim C10 -/

theorem edgeStep_flag (accounts : List AccountAnalysis)
    (acc : List String × List Edge) (row : TxRow)
    (h : ∀ e ∈ acc.2, e.suspicious
        = (decide (30 < scoreOf accounts e.from_) || decide (30 < scoreOf accounts e.to_))) :
    ∀ e ∈ (edgeStep accounts acc row).2, e.suspicious
        = (decide (30 < scoreOf accounts e.from_) || decide (30 < scoreOf accounts e.to_)) := by
  by_cases hk : edgeKey row.sender_id row.receiver_id ∈ acc.1
  · simp only [edgeStep, if_pos hk]
    exact h
  · simp only [edgeStep, if_neg hk]
    intro e he
    rw [List.mem_append] at he
    rcases he with he | he
    · exact h e he
    · rw [List.mem_singleton] at he
      subst he
      rfl

theorem buildEdges_flag (rows : List TxRow) (accounts : List AccountAnalysis) :
    ∀ e ∈ buildEdges rows accounts, e.suspicious
        = (decide (30 < scoreOf accounts e.from_) || decide (30 < scoreOf accounts e.to_)) := by
  unfold buildEdges
  suffices h : ∀ (acc : List String × List Edge),
      (∀ e ∈ acc.2, e.suspicious
        = (decide (30 < scoreOf accounts e.from_) || decide (30 < scoreOf accounts e.to_)))
      → ∀ e ∈ (rows.foldl (edgeStep accounts) acc).2, e.suspicious
        = (decide (30 < scoreOf accounts e.from_) || decide (30 < scoreOf accounts e.to_)) by
    exact h ([], []) (by intro e he; simp at he)
  induction rows with
  | nil => exact fun acc h => h
  | cons row rest ih =>
      intro acc h
      rw [List.foldl_cons]
      exact ih _ (edgeStep_flag accounts acc row h)

/-- C10: in the deduplicated edge list of the result, an edge is flagged
suspicious exactly when the sender's or the receiver's suspicion score
exceeds 30. -/
theorem C10_edge_flag (rows : List TxRow) (e : Edge)
    (he : e ∈ (runAnalysis rows).edges) :
    e.suspicious = true
      ↔ (30 < scoreOf (runAnalysis rows).all_accounts e.from_
          ∨ 30 < scoreOf (runAnalysis rows).all_accounts e.to_) := by
  rw [runAnalysis_edges] at he
  rw [runAnalysis_all_accounts]
  rw [buildEdges_flag rows (accountsFinal rows) e he]
  rw [Bool.or_eq_true, decide_eq_true_iff, decide_eq_true_iff]

/-- Witness for `C10_edge_flag`: the edge `A→B` of the synthetic 3-cycle is
flagged (both endpoints score 60 > 30). -/
theorem C10_edge_flag_witness :
    (⟨"A", "B", 1, true⟩ : Edge) ∈ (runAnalysis cyc3Rows).edges
    ∧ ((⟨"A", "B", 1, true⟩ : Edge).suspicious = true
      ↔ (30 < scoreOf (runAnalysis cyc3Rows).all_accounts "A"
          ∨ 30 < scoreOf (runAnalysis cyc3Rows).all_accounts "B")) := by
  have he : (⟨"A", "B", 1, true⟩ : Edge) ∈ (runAnalysis cyc3Rows).edges := by decide
  exact ⟨he, C10_edge_flag cyc3Rows _ he⟩

/-! ## Claim C9 -/

theorem alookup_of_mem_nodup {α β : Type} [DecidableEq α] {m : List (α × β)}
    (hm : (m.map Prod.fst).Nodup) {k : α} {v : β} (h : (k, v) ∈ m) :
    alookup m k = some v := by
  induction m with
  | nil => cases h
  | cons p rest ih =>
      obtain ⟨k', v'⟩ := p
      rw [List.map_cons, List.nodup_cons] at hm
      rw [List.mem_cons] at h
      rcases h with h | h
      · rw [Prod.mk.injEq] at h
        obtain ⟨rfl, rfl⟩ := h
        simp [alookup]
      · have hk : ¬ k' = k := by
          rintro rfl
          exact hm.1 (List.mem_map.mpr ⟨(k', v), h, rfl⟩)
        simp only [alookup, if_neg hk]
        exact ih hm.2 h

theorem mem_shellCandidates {txCounts : List (String × Nat)} {m : String} :
    m ∈ shellCandidates txCounts ↔ ∃ v, (m, v) ∈ txCounts ∧ 2 ≤ v ∧ v ≤ 3 := by
  unfold shellCandidates
  rw [List.mem_map]
  constructor
  · rintro ⟨⟨k, v⟩, hp, rfl⟩
    rw [List.mem_filter] at hp
    refine ⟨v, hp.1, ?_⟩
    have := of_decide_eq_true hp.2
    exact this
  · rintro ⟨v, hv, h23⟩
    exact ⟨(m, v), List.mem_filter.mpr ⟨hv, decide_eq_true h23⟩, rfl⟩

theorem shellWalk_succ (adj : List (String × List String)) (cands : List String)
    (fuel : Nat) (current : String) (chain : List String) :
    shellWalk adj cands (fuel + 1) current chain
      = match (adjGet adj current).find? (fun n => n ∉ chain ∧ n ∈ cands) with
        | none => chain
        | some next => shellWalk adj cands fuel next (chain ++ [next]) := rfl

theorem shellWalk_inv (adj : List (String × List String)) (cands : List String) :
    ∀ (fuel : Nat) (current : String) (chain : List String),
      chain.getLast? = some current →
      chain.Nodup →
      (∀ m ∈ chain, m ∈ cands) →
      List.Chain' (fun a b => b ∈ adjGet adj a) chain →
      (shellWalk adj cands fuel current chain).Nodup
      ∧ (∀ m ∈ shellWalk adj cands fuel current chain, m ∈ cands)
      ∧ List.Chain' (fun a b => b ∈ adjGet adj a) (shellWalk adj cands fuel current chain)
      ∧ chain.length ≤ (shellWalk adj cands fuel current chain).length := by
  intro fuel
  induction fuel with
  | zero => exact fun current chain _ h2 h3 h4 => ⟨h2, h3, h4, Nat.le_refl _⟩
  | succ fuel ih =>
      intro current chain hlast hnd hsub hch
      rw [shellWalk_succ]
      rcases hfind : (adjGet adj current).find? (fun n => n ∉ chain ∧ n ∈ cands)
        with _ | next
      · exact ⟨hnd, hsub, hch, Nat.le_refl _⟩
      ·
        have hp0 := List.find?_some hfind
        have hp : next ∉ chain ∧ next ∈ cands := of_decide_eq_true hp0
        have hadj : next ∈ adjGet adj current := List.mem_of_find?_eq_some hfind
        have hnd' : (chain ++ [next]).Nodup := by
          rw [List.nodup_append]
          refine ⟨hnd, List.nodup_singleton next, ?_⟩
          intro a ha hax
          rw [List.mem_singleton] at hax
          exact hp.1 (hax ▸ ha)
        have hsub' : ∀ m ∈ chain ++ [next], m ∈ cands := by
          intro m hm
          rw [List.mem_append] at hm
          rcases hm with hm | hm
          · exact hsub m hm
          · rw [List.mem_singleton] at hm
            exact hm ▸ hp.2
        have hch' : List.Chain' (fun a b => b ∈ adjGet adj a) (chain ++ [next]) := by
          rw [List.chain'_append]
          refine ⟨hch, List.chain'_singleton next, ?_⟩
          intro x hx y hy
          rw [hlast, Option.mem_some_iff] at hx
          simp only [List.head?_cons, Option.mem_some_iff] at hy
          rw [← hx, ← hy]
          exact hadj
        have := ih next (chain ++ [next]) (List.getLast?_concat chain) hnd' hsub' hch'
        refine ⟨this.1, this.2.1, this.2.2.1, ?_⟩
        calc chain.length ≤ (chain ++ [next]).length := by
              rw [List.length_append]
              omega
          _ ≤ _ := this.2.2.2

theorem shellStep_chains (adj : List (String × List String)) (cands : List String)
    (acc : List String × List (List String)) (start : String) (hstart : start ∈ cands)
    (hP : ∀ c ∈ acc.2, 3 ≤ c.length ∧ c.Nodup ∧ (∀ m ∈ c, m ∈ cands)
        ∧ List.Chain' (fun a b => b ∈ adjGet adj a) c) :
    ∀ c ∈ (shellStep adj cands acc start).2, 3 ≤ c.length ∧ c.Nodup
      ∧ (∀ m ∈ c, m ∈ cands) ∧ List.Chain' (fun a b => b ∈ adjGet adj a) c := by
  by_cases hs : start ∈ acc.1
  · simp only [shellStep, if_pos hs]
    exact hP
  · simp only [shellStep, if_neg hs]
    by_cases hl : 3 ≤ (shellWalk adj cands cands.length start [start]).length
    · rw [if_pos hl]
      intro c hc
      rw [List.mem_append] at hc
      rcases hc with hc | hc
      · exact hP c hc
      · rw [List.mem_singleton] at hc
        subst hc
        have hw := shellWalk_inv adj cands cands.length start [start]
          (by rw [List.getLast?_singleton]) (List.nodup_singleton start)
          (by intro m hm; rw [List.mem_singleton] at hm; exact hm ▸ hstart)
          (List.chain'_singleton start)
        exact ⟨hl, hw.1, hw.2.1, hw.2.2.1⟩
    · rw [if_neg hl]
      exact hP

theorem shellFold_chains (adj : List (String × List String)) (cands : List String)
    (l : List String) (hl : ∀ s ∈ l, s ∈ cands) :
    ∀ (acc : List String × List (List String)),
      (∀ c ∈ acc.2, 3 ≤ c.length ∧ c.Nodup ∧ (∀ m ∈ c, m ∈ cands)
        ∧ List.Chain' (fun a b => b ∈ adjGet adj a) c)
      → ∀ c ∈ (l.foldl (shellStep adj cands) acc).2, 3 ≤ c.length ∧ c.Nodup
          ∧ (∀ m ∈ c, m ∈ cands) ∧ List.Chain' (fun a b => b ∈ adjGet adj a) c := by
  induction l with
  | nil => exact fun acc h => h
  | cons s rest ih =>
      intro acc h
      rw [List.foldl_cons]
      exact ih (fun x hx => hl x (List.mem_cons_of_mem s hx)) _
        (shellStep_chains adj cands acc s (hl s (List.mem_cons_self s rest)) h)

/-- C9: every chain reported by `detectShellChains` has at least 3
pairwise-distinct members, every member's total transaction count is 2 or
3, and consecutive members are linked by directed edges of the adjacency
map.  (`hkeys` states that `txCounts` is a well-formed object: its keys are
distinct, as is automatic for a JS `Record`.) -/
theorem C9_shell_chains (adj : List (String × List String))
    (txCounts : List (String × Nat)) (hkeys : (txCounts.map Prod.fst).Nodup)
    (chain : List String) (hc : chain ∈ (detectShellChains adj txCounts).2) :
    3 ≤ chain.length ∧ chain.Nodup
    ∧ (∀ m ∈ chain, 2 ≤ txCountOf txCounts m ∧ txCountOf txCounts m ≤ 3)
    ∧ List.Chain' (fun a b => b ∈ adjGet adj a) chain := by
  unfold detectShellChains at hc
  have h := shellFold_chains adj (shellCandidates txCounts) (shellCandidates txCounts)
    (fun s hs => hs) ([], []) (by intro c hcc; cases hcc) chain hc
  refine ⟨h.1, h.2.1, ?_, h.2.2.2⟩
  intro m hm
  obtain ⟨v, hv, h2, h3⟩ := mem_shellCandidates.mp (h.2.2.1 m hm)
  have : txCountOf txCounts m = v := by
    unfold txCountOf
    rw [alookup_of_mem_nodup hkeys hv]
    rfl
  rw [this]
  exact ⟨h2, h3⟩

/-- Witness for `C9_shell_chains`: the chain `X→Y→Z` detected on
`permRows1`. -/
theorem C9_shell_chains_witness :
    ((buildGraph permRows1).txCounts.map Prod.fst).Nodup
    ∧ ["X", "Y", "Z"] ∈ (detectShellChains (buildGraph permRows1).adj
        (buildGraph permRows1).txCounts).2
    ∧ 3 ≤ (["X", "Y", "Z"] : List String).length := by
  have hkeys : ((buildGraph permRows1).txCounts.map Prod.fst).Nodup := by decide
  have hc : ["X", "Y", "Z"] ∈ (detectShellChains (buildGraph permRows1).adj
      (buildGraph permRows1).txCounts).2 := by decide
  exact ⟨hkeys, hc,
    (C9_shell_chains (buildGraph permRows1).adj (buildGraph permRows1).txCounts
      hkeys _ hc).1⟩

/-! ## Claim C7 -/

theorem insertStable_perm {α : Type} (le : α → α → Bool) (x : α) (l : List α) :
    (insertStable le x l).Perm (x :: l) := by
  induction l with
  | nil => exact List.Perm.refl _
  | cons y ys ih =>
      show (if le y x then y :: insertStable le x ys else x :: y :: ys).Perm _
      split
      · exact ((List.Perm.cons y ih).trans (List.Perm.swap x y ys))
      · exact List.Perm.refl _

theorem stableSort_perm {α : Type} (le : α → α → Bool) (l : List α) :
    (stableSort le l).Perm l := by
  unfold stableSort
  suffices h : ∀ acc : List α, (l.foldl (fun acc x => insertStable le x acc) acc).Perm (acc ++ l) by
    exact h []
  induction l with
  | nil => intro acc; simp
  | cons x rest ih =>
      intro acc
      rw [List.foldl_cons]
      refine (ih (insertStable le x acc)).trans ?_
      refine (List.Perm.append_right rest (insertStable_perm le x acc)).trans ?_
      exact List.perm_middle.symm

theorem mem_stableSort {α : Type} (le : α → α → Bool) (l : List α) (x : α) :
    x ∈ stableSort le l ↔ x ∈ l :=
  (stableSort_perm le l).mem_iff

theorem scoreOf_map_assign (rings : List FraudRing) (accounts : List AccountAnalysis)
    (id : String) :
    scoreOf (accounts.map (assignRing rings)) id = scoreOf accounts id := by
  unfold scoreOf
  rw [List.find?_map]
  have hp : ((fun a => decide (a.account_id = id)) ∘ assignRing rings)
      = (fun a => decide (a.account_id = id)) := by
    funext a
    simp only [Function.comp_apply, assignRing_account_id]
  rw [hp]
  rcases h : accounts.find? (fun a => decide (a.account_id = id)) with _ | a
  · rw [h]
    rfl
  · rw [h]
    simp [assignRing_suspicion_score]

theorem patternsOf_map_assign (rings : List FraudRing) (accounts : List AccountAnalysis)
    (id : String) :
    patternsOf (accounts.map (assignRing rings)) id = patternsOf accounts id := by
  unfold patternsOf
  rw [List.find?_map]
  have hp : ((fun a => decide (a.account_id = id)) ∘ assignRing rings)
      = (fun a => decide (a.account_id = id)) := by
    funext a
    simp only [Function.comp_apply, assignRing_account_id]
  rw [hp]
  rcases h : accounts.find? (fun a => decide (a.account_id = id)) with _ | a
  · rw [h]
    rfl
  · rw [h]
    simp [assignRing_detected_patterns]

theorem mkRing_members (accounts : List AccountAnalysis) (idx : Nat)
    (ms : List String) : (mkRing accounts idx ms).member_accounts = ms := by
  unfold mkRing
  split <;> rfl

theorem mem_mkRings {accounts : List AccountAnalysis} {r : FraudRing} :
    ∀ {idx : Nat} {gs : List (String × List String)}, r ∈ mkRings accounts idx gs
      → ∃ idx' g, g ∈ gs ∧ r = mkRing accounts idx' g.2 := by
  intro idx gs
  induction gs generalizing idx with
  | nil => intro h; cases h
  | cons g rest ih =>
      intro h
      rw [mkRings, List.mem_cons] at h
      rcases h with h | h
      · exact ⟨idx, g, List.mem_cons_self g rest, h⟩
      · obtain ⟨idx', g', hg', he⟩ := ih h
        exact ⟨idx', g', List.mem_cons_of_mem g hg', he⟩

/-- C7: a fraud ring with at least two members carries the rounded mean of
its members' suspicion scores as `risk_score` and the comma-joined set of
their distinct patterns (first-seen order) as `pattern_type`; a solo ring
carries the single account's own score; a two-member ring with scores 40
and 60 has `risk_score` exactly 50. -/
theorem C7_ring_scores (rows : List TxRow) (r : FraudRing)
    (hr : r ∈ (runAnalysis rows).fraud_rings) :
    (2 ≤ r.member_accounts.length →
      r.risk_score = round1 ((r.member_accounts.map
          (fun m => (scoreOf (runAnalysis rows).all_accounts m : ℚ))).sum
        / r.member_accounts.length)
      ∧ r.pattern_type = String.intercalate ", "
          (r.member_accounts.foldl
            (fun ps m => (patternsOf (runAnalysis rows).all_accounts m).foldl setAdd ps) []))
    ∧ (∀ m, r.member_accounts = [m] →
        r.risk_score = (scoreOf (runAnalysis rows).all_accounts m : ℚ))
    ∧ ((r.member_accounts.map (fun m => scoreOf (runAnalysis rows).all_accounts m)
          = [40, 60]) → r.risk_score = 50) := by
  rw [runAnalysis_fraud_rings, mem_stableSort] at hr
  obtain ⟨idx, ⟨groot, ms⟩, hgmem, rfl⟩ := mem_mkRings hr
  dsimp only at hgmem ⊢
  have hsc : ∀ m, scoreOf (runAnalysis rows).all_accounts m
      = scoreOf (accountsPreRing rows) m := by
    intro m
    rw [runAnalysis_all_accounts]
    unfold accountsFinal
    exact scoreOf_map_assign _ _ m
  have hpt : ∀ m, patternsOf (runAnalysis rows).all_accounts m
      = patternsOf (accountsPreRing rows) m := by
    intro m
    rw [runAnalysis_all_accounts]
    unfold accountsFinal
    exact patternsOf_map_assign _ _ m
  rw [mkRing_members]
  have hfs : (fun m => (scoreOf (runAnalysis rows).all_accounts m : ℚ))
      = (fun m => (scoreOf (accountsPreRing rows) m : ℚ)) := by
    funext m
    rw [hsc m]
  have hfp : (fun (ps : List String) m =>
        (patternsOf (runAnalysis rows).all_accounts m).foldl setAdd ps)
      = (fun ps m => (patternsOf (accountsPreRing rows) m).foldl setAdd ps) := by
    funext ps m
    rw [hpt m]
  refine ⟨?_, ?_, ?_⟩
  · intro hlen
    have hnot : ¬ ms.length < 2 := by omega
    constructor
    · show (mkRing (accountsPreRing rows) idx ms).risk_score = _
      rw [hfs]
      simp only [mkRing, if_neg hnot]
    · show (mkRing (accountsPreRing rows) idx ms).pattern_type = _
      rw [hfp]
      simp only [mkRing, if_neg hnot]
  · rintro m rfl
    show (mkRing (accountsPreRing rows) idx [m]).risk_score = _
    rw [hsc m]
    simp only [mkRing]
    rw [if_pos (by simp : ([m] : List String).length < 2)]
    rfl
  · intro hmap
    have hnot : ¬ ms.length < 2 := by
      have := congrArg List.length hmap
      simp only [List.length_map, List.length_cons, List.length_nil] at this
      omega
    have hcast : ms.map (fun m => (scoreOf (accountsPreRing rows) m : ℚ))
        = [(40 : ℚ), 60] := by
      rw [← hfs]
      have h0 := congrArg (List.map (fun z : Int => (z : ℚ))) hmap
      rw [List.map_map] at h0
      simpa using h0
    have hl : (ms.length : ℚ) = 2 := by
      have := congrArg List.length hmap
      simp only [List.length_map, List.length_cons, List.length_nil] at this
      rw [this]
      norm_num
    show (mkRing (accountsPreRing rows) idx ms).risk_score = _
    simp only [mkRing, if_neg hnot]
    rw [hcast, hl]
    decide

/-- Witness for `C7_ring_scores`: the single ring of the synthetic 3-cycle
(three members, each scoring 60) satisfies the mean/pattern formulas. -/
theorem C7_ring_scores_witness :
    (⟨"RING_001", ["A", "B", "C"], "cycle_length_3, shell_chain", 60⟩ : FraudRing)
        ∈ (runAnalysis cyc3Rows).fraud_rings
    ∧ ((60 : ℚ) = round1 (((["A", "B", "C"].map
          (fun m => (scoreOf (runAnalysis cyc3Rows).all_accounts m : ℚ))).sum)
        / (["A", "B", "C"] : List String).length)
      ∧ "cycle_length_3, shell_chain" = String.intercalate ", "
          ((["A", "B", "C"] : List String).foldl
            (fun ps m => (patternsOf (runAnalysis cyc3Rows).all_accounts m).foldl setAdd ps)
            [])) := by
  have hr : (⟨"RING_001", ["A", "B", "C"], "cycle_length_3, shell_chain", 60⟩ : FraudRing)
      ∈ (runAnalysis cyc3Rows).fraud_rings := by decide
  exact ⟨hr, (C7_ring_scores cyc3Rows _ hr).1 (by decide)⟩

/-! ## Claim C8 -/

theorem alookup_cons_self {α β : Type} [DecidableEq α] (k : α) (v : β)
    (rest : List (α × β)) : alookup ((k, v) :: rest) k = some v := by
  simp [alookup]

theorem alookup_cons_ne {α β : Type} [DecidableEq α] {k' k : α} (h : k' ≠ k) (v : β)
    (rest : List (α × β)) : alookup ((k', v) :: rest) k = alookup rest k := by
  simp [alookup, h]

theorem upsert_cons_self {α β : Type} [DecidableEq α] (k : α) (v : β)
    (rest : List (α × β)) (d : β) (f : β → β) :
    upsert ((k, v) :: rest) k d f = (k, f v) :: rest := by
  simp [upsert]

theorem upsert_cons_ne {α β : Type} [DecidableEq α] {k' k : α} (h : k' ≠ k) (v : β)
    (rest : List (α × β)) (d : β) (f : β → β) :
    upsert ((k', v) :: rest) k d f = (k', v) :: upsert rest k d f := by
  simp [upsert, h]

theorem alookup_mem {α β : Type} [DecidableEq α] {m : List (α × β)} {k : α} {v : β}
    (h : alookup m k = some v) : (k, v) ∈ m := by
  induction m with
  | nil => cases h
  | cons p rest ih =>
      obtain ⟨k', v'⟩ := p
      by_cases hk : k' = k
      · subst hk
        rw [alookup_cons_self, Option.some.injEq] at h
        subst h
        exact List.mem_cons_self _ _
      · rw [alookup_cons_ne hk] at h
        exact List.mem_cons_of_mem _ (ih h)

theorem alookup_eq_none_iff {α β : Type} [DecidableEq α] {m : List (α × β)} {k : α} :
    alookup m k = none ↔ k ∉ m.map Prod.fst := by
  induction m with
  | nil => simp [alookup]
  | cons p rest ih =>
      obtain ⟨k', v'⟩ := p
      by_cases hk : k' = k
      · subst hk
        simp [alookup]
      · simp only [alookup, if_neg hk, List.map_cons, List.mem_cons, ih]
        constructor
        · rintro h (h' | h')
          · exact hk h'.symm
          · exact h h'
        · intro h h'
          exact h (Or.inr h')

theorem nodup_keys_upsert {α β : Type} [DecidableEq α] {m : List (α × β)}
    (hnd : (m.map Prod.fst).Nodup) (k : α) (d : β) (f : β → β) :
    ((upsert m k d f).map Prod.fst).Nodup := by
  rw [keys_upsert]
  split
  · exact hnd
  · rename_i hk
    rw [List.nodup_append]
    refine ⟨hnd, List.nodup_singleton k, ?_⟩
    intro a ha hax
    rw [List.mem_singleton] at hax
    exact hk (hax ▸ ha)

theorem mem_upsert_iff {α β : Type} [DecidableEq α] {m : List (α × β)}
    (hnd : (m.map Prod.fst).Nodup) (k : α) (d : β) (f : β → β) (p : α × β) :
    p ∈ upsert m k d f
      ↔ (p.1 ≠ k ∧ p ∈ m) ∨ (p.1 = k ∧ p.2 = f ((alookup m k).getD d)) := by
  induction m with
  | nil =>
      simp only [upsert, alookup, List.mem_singleton, List.not_mem_nil, and_false, false_or,
        Option.getD_none]
      constructor
      · rintro rfl
        exact ⟨rfl, rfl⟩
      · rintro ⟨h1, h2⟩
        obtain ⟨p1, p2⟩ := p
        simp only at h1 h2
        rw [h1, h2]
  | cons q rest ih =>
      obtain ⟨k', v⟩ := q
      rw [List.map_cons, List.nodup_cons] at hnd
      by_cases hk : k' = k
      · subst hk
        rw [upsert_cons_self, alookup_cons_self, Option.getD_some]
        constructor
        · intro h
          rw [List.mem_cons] at h
          rcases h with h | h
          · subst h
            exact Or.inr ⟨rfl, rfl⟩
          · have hne : p.1 ≠ k' := by
              intro he
              exact hnd.1 (he ▸ List.mem_map.mpr ⟨p, h, rfl⟩)
            exact Or.inl ⟨hne, List.mem_cons_of_mem _ h⟩
        · rintro (⟨hne, hp⟩ | ⟨he, hv⟩)
          · rw [List.mem_cons] at hp
            rcases hp with hp | hp
            · exact absurd (congrArg Prod.fst hp) hne
            · exact List.mem_cons_of_mem _ hp
          · obtain ⟨p1, p2⟩ := p
            simp only at he hv
            rw [he, hv]
            exact List.mem_cons_self _ _
      · rw [upsert_cons_ne hk, alookup_cons_ne hk]
        rw [List.mem_cons, ih hnd.2, List.mem_cons]
        constructor
        · rintro (h | ⟨hne, hp⟩ | ⟨he, hv⟩)
          · refine Or.inl ⟨?_, Or.inl h⟩
            rw [h]
            exact hk
          · exact Or.inl ⟨hne, Or.inr hp⟩
          · exact Or.inr ⟨he, hv⟩
        · rintro (⟨hne, h | hp⟩ | ⟨he, hv⟩)
          · exact Or.inl h
          · exact Or.inr (Or.inl ⟨hne, hp⟩)
          · exact Or.inr (Or.inr ⟨he, hv⟩)

theorem mem_keys_upsert_of_mem {α β : Type} [DecidableEq α] {m : List (α × β)} {x : α}
    (h : x ∈ m.map Prod.fst) (k : α) (d : β) (f : β → β) :
    x ∈ (upsert m k d f).map Prod.fst := by
  rw [keys_upsert]
  split
  · exact h
  · exact List.mem_append_left _ h

theorem self_mem_keys_upsert {α β : Type} [DecidableEq α] (m : List (α × β)) (k : α)
    (d : β) (f : β → β) : k ∈ (upsert m k d f).map Prod.fst := by
  rw [keys_upsert]
  split
  · assumption
  · exact List.mem_append_right _ (List.mem_singleton_self k)

theorem groupsFold_spec (parent : List (String × String)) :
    ∀ (l : List AccountAnalysis) (gs : List (String × List String))
      (processed : List String),
      (gs.map Prod.fst).Nodup →
      (∀ p ∈ gs, p.2 = processed.filter (fun id => ufRoot parent id = p.1)) →
      (∀ id ∈ processed, ufRoot parent id ∈ gs.map Prod.fst) →
      ((l.foldl (fun gs a =>
          upsert gs (ufRoot parent a.account_id) [] (fun v => v ++ [a.account_id])) gs).map
            Prod.fst).Nodup
      ∧ (∀ p ∈ l.foldl (fun gs a =>
            upsert gs (ufRoot parent a.account_id) [] (fun v => v ++ [a.account_id])) gs,
          p.2 = (processed ++ l.map (·.account_id)).filter
            (fun id => ufRoot parent id = p.1))
      ∧ (∀ id ∈ processed ++ l.map (·.account_id),
          ufRoot parent id ∈ (l.foldl (fun gs a =>
            upsert gs (ufRoot parent a.account_id) [] (fun v => v ++ [a.account_id])) gs).map
              Prod.fst) := by
  intro l
  induction l with
  | nil =>
      intro gs processed h1 h2 h3
      simp only [List.foldl_nil, List.map_nil, List.append_nil]
      exact ⟨h1, h2, h3⟩
  | cons a rest ih =>
      intro gs processed h1 h2 h3
      rw [List.foldl_cons]
      have hstep := ih (upsert gs (ufRoot parent a.account_id) []
          (fun v => v ++ [a.account_id])) (processed ++ [a.account_id])
        (nodup_keys_upsert h1 _ _ _) ?_ ?_
      · refine ⟨hstep.1, ?_, ?_⟩
        · intro p hp
          have := hstep.2.1 p hp
          rw [this, List.map_cons]
          rw [List.append_assoc]
          rfl
        · intro id hid
          refine hstep.2.2 id ?_
          rw [List.append_assoc]
          rw [List.map_cons] at hid
          exact hid
      · intro p hp
        rw [mem_upsert_iff h1] at hp
        rcases hp with ⟨hne, hp⟩ | ⟨he, hv⟩
        · rw [h2 p hp, List.filter_append]
          have : [a.account_id].filter (fun id => ufRoot parent id = p.1) = [] := by
            rw [List.filter_eq_nil_iff]
            intro x hx
            rw [List.mem_singleton] at hx
            subst hx
            exact fun hc => hne ((of_decide_eq_true hc).symm)
          rw [this, List.append_nil]
        · rw [hv]
          have hone : [a.account_id].filter (fun id => ufRoot parent id = p.1)
              = [a.account_id] := by
            rw [List.filter_eq_self]
            intro x hx
            rw [List.mem_singleton] at hx
            subst hx
            exact decide_eq_true he.symm
          rcases halook : alookup gs (ufRoot parent a.account_id) with _ | ms0
          · have hempty : processed.filter (fun id => ufRoot parent id = p.1) = [] := by
              rw [List.filter_eq_nil_iff]
              intro x hx hc
              have := h3 x hx
              rw [of_decide_eq_true hc, he] at this
              exact (alookup_eq_none_iff.mp halook) this
            rw [List.filter_append, hempty, hone]
            rfl
          · have hmem := alookup_mem halook
            have hms0 : ms0 = processed.filter
                (fun id => ufRoot parent id = ufRoot parent a.account_id) := h2 _ hmem
            rw [Option.getD_some, List.filter_append, hone, hms0, he]
      · intro id hid
        rw [List.mem_append] at hid
        rcases hid with hid | hid
        · exact mem_keys_upsert_of_mem (h3 id hid) _ _ _
        · rw [List.mem_singleton] at hid
          subst hid
          exact self_mem_keys_upsert _ _ _ _

theorem ringGroupsOf_eq (rows : List TxRow) :
    ringGroupsOf rows
      = ((accountsPreRing rows).filter (fun a => 0 < a.suspicion_score)).foldl
          (fun gs a => upsert gs (ufRoot (ufParentOf rows) a.account_id) []
            (fun v => v ++ [a.account_id])) [] := rfl

theorem ringGroups_spec (rows : List TxRow) :
    ((ringGroupsOf rows).map Prod.fst).Nodup
    ∧ (∀ p ∈ ringGroupsOf rows,
        p.2 = (((accountsPreRing rows).filter (fun a => 0 < a.suspicion_score)).map
            (·.account_id)).filter (fun id => ufRoot (ufParentOf rows) id = p.1))
    ∧ (∀ id ∈ ((accountsPreRing rows).filter (fun a => 0 < a.suspicion_score)).map
          (·.account_id),
        ufRoot (ufParentOf rows) id ∈ (ringGroupsOf rows).map Prod.fst) := by
  rw [ringGroupsOf_eq]
  have h := groupsFold_spec (ufParentOf rows)
    ((accountsPreRing rows).filter (fun a => 0 < a.suspicion_score)) [] []
    List.nodup_nil (by intro p hp; cases hp) (by intro id hid; cases hid)
  simpa only [List.nil_append] using h

theorem rawRingsOf_eq (rows : List TxRow) :
    rawRingsOf rows = mkRings (accountsPreRing rows) 1 (ringGroupsOf rows) := rfl

theorem mkRing_ring_id (accounts : List AccountAnalysis) (idx : Nat)
    (ms : List String) : (mkRing accounts idx ms).ring_id = "RING_" ++ pad3 idx := by
  unfold mkRing
  split <;> rfl

theorem countP_mkRings (accounts : List AccountAnalysis) (p : String) :
    ∀ (gs : List (String × List String)) (i : Nat),
      (mkRings accounts i gs).countP (fun r => decide (p ∈ r.member_accounts))
        = gs.countP (fun g => decide (p ∈ g.2)) := by
  intro gs
  induction gs with
  | nil => intro i; rfl
  | cons g rest ih =>
      intro i
      rw [mkRings, List.countP_cons, List.countP_cons, ih]
      rw [mkRing_members]

theorem mkRings_get (accounts : List AccountAnalysis) :
    ∀ (gs : List (String × List String)) (i k : Nat)
      (h : k < (mkRings accounts i gs).length),
      ((mkRings accounts i gs).get ⟨k, h⟩).ring_id = "RING_" ++ pad3 (i + k) := by
  intro gs
  induction gs with
  | nil =>
      intro i k h
      exact absurd h (Nat.not_lt_zero k)
  | cons g rest ih =>
      intro i k h
      cases k with
      | zero =>
          show (mkRing accounts i g.2).ring_id = _
          rw [mkRing_ring_id, Nat.add_zero]
      | succ k' =>
          show ((mkRings accounts (i + 1) rest).get ⟨k', _⟩).ring_id = _
          rw [ih]
          congr 2
          omega

theorem countP_eq_one_of_nodup_mem {α : Type} [DecidableEq α] {l : List α}
    (hnd : l.Nodup) {r : α} (hr : r ∈ l) :
    l.countP (fun k => decide (k = r)) = 1 := by
  induction l with
  | nil => cases hr
  | cons a t ih =>
      rw [List.countP_cons]
      rw [List.nodup_cons] at hnd
      rcases List.mem_cons.mp hr with heq | hr'
      · subst heq
        have h0 : t.countP (fun k => decide (k = r)) = 0 := by
          rw [List.countP_eq_zero]
          intro x hx
          simp only [decide_eq_true_eq]
          rintro rfl
          exact hnd.1 hx
        rw [h0]
        simp
      · have hne : ¬ (a = r) := fun he => hnd.1 (he ▸ hr')
        rw [ih hnd.2 hr']
        simp [hne]

theorem accountsPreRing_ids (rows : List TxRow) :
    (accountsPreRing rows).map (·.account_id) = allNodesOf (buildGraph rows) := by
  unfold accountsPreRing
  rw [List.map_map]
  have h : ∀ l : List String,
      l.map ((fun a => a.account_id) ∘ (scoreNode
        (detectCycles (buildGraph rows).adj 5)
        (cycleMembersOf (detectCycles (buildGraph rows).adj 5))
        (detectSmurfing (buildGraph rows).adj (buildGraph rows).reverseAdj
          (buildGraph rows).txCounts (buildGraph rows).edgeTimestamps).1
        (detectShellChains (buildGraph rows).adj (buildGraph rows).txCounts).1
        (detectSmurfing (buildGraph rows).adj (buildGraph rows).reverseAdj
          (buildGraph rows).txCounts (buildGraph rows).edgeTimestamps).2
        (detectHighValueOutliers (buildGraph rows).edgeAmounts rows)
        (buildGraph rows).txCounts)) = l := by
    intro l
    induction l with
    | nil => rfl
    | cons x t iht =>
        rw [List.map_cons, iht]
        rfl
  exact h _

theorem accountsPreRing_ids_nodup (rows : List TxRow) :
    ((accountsPreRing rows).map (·.account_id)).Nodup := by
  rw [accountsPreRing_ids]
  exact nodup_dedupConcat _ _

/-- C8: every account with positive score is a member of exactly one fraud
ring and its `ring_id` is that ring's id; score-0 accounts keep `ring_id`
null; ring ids are assigned sequentially in group-iteration order as
`RING_NNN` (1-based, zero-padded to 3 digits); the reported sorted ring list
is a permutation of the sequentially-numbered one. -/
theorem C8_ring_partition (rows : List TxRow) :
    (∀ acc, acc ∈ (runAnalysis rows).all_accounts → 0 < acc.suspicion_score →
      (runAnalysis rows).fraud_rings.countP
          (fun r => decide (acc.account_id ∈ r.member_accounts)) = 1
      ∧ ∃ r, r ∈ (runAnalysis rows).fraud_rings ∧ acc.account_id ∈ r.member_accounts
          ∧ acc.ring_id = some r.ring_id)
    ∧ (∀ acc, acc ∈ (runAnalysis rows).all_accounts → acc.suspicion_score = 0 →
        acc.ring_id = none)
    ∧ (∀ k (h : k < (rawRingsOf rows).length),
        ((rawRingsOf rows).get ⟨k, h⟩).ring_id = "RING_" ++ pad3 (k + 1))
    ∧ (rawRingsOf rows).Perm (runAnalysis rows).fraud_rings := by
  obtain ⟨hnd, hspec, hroots⟩ := ringGroups_spec rows
  refine ⟨?_, ?_, ?_, ?_⟩
  · intro acc hacc hpos
    rw [runAnalysis_all_accounts] at hacc
    unfold accountsFinal at hacc
    rw [List.mem_map] at hacc
    obtain ⟨a0, ha0, rfl⟩ := hacc
    rw [assignRing_suspicion_score] at hpos
    have hidmem : a0.account_id ∈ (((accountsPreRing rows).filter
        (fun a => 0 < a.suspicion_score)).map (·.account_id)) :=
      List.mem_map.mpr ⟨a0, List.mem_filter.mpr ⟨ha0, decide_eq_true hpos⟩, rfl⟩
    have hcount : (rawRingsOf rows).countP
        (fun r => decide (a0.account_id ∈ r.member_accounts)) = 1 := by
      rw [rawRingsOf_eq, countP_mkRings]
      have hcongr : ∀ g ∈ ringGroupsOf rows,
          (decide (a0.account_id ∈ g.2) = true
            ↔ decide (g.1 = ufRoot (ufParentOf rows) a0.account_id) = true) := by
        intro g hg
        rw [decide_eq_true_iff, decide_eq_true_iff]
        rw [hspec g hg, List.mem_filter]
        constructor
        · rintro ⟨_, hd⟩
          exact (of_decide_eq_true hd).symm
        · intro hg1
          exact ⟨hidmem, decide_eq_true hg1.symm⟩
      rw [List.countP_congr hcongr]
      have hcomp : (fun (g : String × List String) =>
            decide (g.1 = ufRoot (ufParentOf rows) a0.account_id))
          = ((fun k => decide (k = ufRoot (ufParentOf rows) a0.account_id)) ∘ Prod.fst) :=
        rfl
      rw [hcomp, ← List.countP_map]
      exact countP_eq_one_of_nodup_mem hnd (hroots _ hidmem)
    have hperm := stableSort_perm (fun a b => b.risk_score ≤ a.risk_score) (rawRingsOf rows)
    constructor
    · rw [runAnalysis_fraud_rings]
      rw [assignRing_account_id]
      rw [hperm.countP_eq]
      exact hcount
    · have hex : ∃ r ∈ rawRingsOf rows, a0.account_id ∈ r.member_accounts := by
        by_contra hno
        push_neg at hno
        have h0 : (rawRingsOf rows).countP
            (fun r => decide (a0.account_id ∈ r.member_accounts)) = 0 := by
          rw [List.countP_eq_zero]
          intro r hr
          simpa using hno r hr
        rw [h0] at hcount
        cases hcount
      obtain ⟨r1, hr1, hmem1⟩ := hex
      rcases hfind : (rawRingsOf rows).find?
          (fun r => decide (a0.account_id ∈ r.member_accounts)) with _ | r2
      · rw [List.find?_eq_none] at hfind
        exact absurd (decide_eq_true hmem1) (hfind r1 hr1)
      · refine ⟨r2, ?_, ?_, ?_⟩
        · rw [runAnalysis_fraud_rings, mem_stableSort]
          exact List.mem_of_find?_eq_some hfind
        · have := List.find?_some hfind
          rw [assignRing_account_id]
          exact of_decide_eq_true this
        · show (assignRing (rawRingsOf rows) a0).ring_id = some r2.ring_id
          unfold assignRing
          rw [hfind]
  · intro acc hacc hzero
    rw [runAnalysis_all_accounts] at hacc
    unfold accountsFinal at hacc
    rw [List.mem_map] at hacc
    obtain ⟨a0, ha0, rfl⟩ := hacc
    rw [assignRing_suspicion_score] at hzero
    have hfindnone : (rawRingsOf rows).find?
        (fun r => decide (a0.account_id ∈ r.member_accounts)) = none := by
      rw [List.find?_eq_none]
      intro r hr hdec
      have hmem := of_decide_eq_true hdec
      obtain ⟨idx, g, hg, rfl⟩ := mem_mkRings (rawRingsOf_eq rows ▸ hr)
      rw [mkRing_members] at hmem
      rw [hspec g hg, List.mem_filter] at hmem
      obtain ⟨hin, _⟩ := hmem
      rw [List.mem_map] at hin
      obtain ⟨a1, ha1f, hid1⟩ := hin
      rw [List.mem_filter] at ha1f
      have heq : a1 = a0 := by
        have hinj := List.inj_on_of_nodup_map (accountsPreRing_ids_nodup rows)
        exact hinj ha1f.1 ha0 hid1
      have := of_decide_eq_true ha1f.2
      rw [heq, hzero] at this
      cases this
    show (assignRing (rawRingsOf rows) a0).ring_id = none
    unfold assignRing
    rw [hfindnone]
    unfold accountsPreRing at ha0
    rw [List.mem_map] at ha0
    obtain ⟨node, _, rfl⟩ := ha0
    rfl
  · intro k h
    have h' : k < (mkRings (accountsPreRing rows) 1 (ringGroupsOf rows)).length := by
      rw [← rawRingsOf_eq]
      exact h
    have := mkRings_get (accountsPreRing rows) (ringGroupsOf rows) 1 k h'
    rw [Nat.add_comm 1 k] at this
    exact this
  · rw [runAnalysis_fraud_rings]
    exact (stableSort_perm _ _).symm

/-- Witness for `C8_ring_partition`: on the synthetic 3-cycle, account `A`
(score 60) belongs to exactly one ring, `RING_001`, and carries its id. -/
theorem C8_ring_partition_witness :
    ((⟨"A", 60, ["cycle_length_3", "shell_chain"], some "RING_001", 2⟩ : AccountAnalysis)
        ∈ (runAnalysis cyc3Rows).all_accounts
      ∧ (0 : Int) < 60)
    ∧ (runAnalysis cyc3Rows).fraud_rings.countP
        (fun r => decide (("A" : String) ∈ r.member_accounts)) = 1 := by
  have hacc : (⟨"A", 60, ["cycle_length_3", "shell_chain"], some "RING_001", 2⟩
      : AccountAnalysis) ∈ (runAnalysis cyc3Rows).all_accounts := by decide
  have hpos : (0 : Int) < 60 := by decide
  exact ⟨⟨hacc, hpos⟩, ((C8_ring_partition cyc3Rows).1 _ hacc hpos).1⟩

/-! ## Claims C3 and C4: the cycle detector

Order lemmas for the JS string comparison `lexLt`/`strLt`. -/

theorem charToNat_inj {c d : Char} (h : c.toNat = d.toNat) : c = d :=
  Char.ext (UInt32.ext h)

theorem lexLt_irrefl (l : List Char) : lexLt l l = false := by
  induction l with
  | nil => rfl
  | cons c cs ih =>
      show (if c = c then lexLt cs cs else _) = false
      rw [if_pos rfl]
      exact ih

theorem lexLt_trans : ∀ {a b c : List Char},
    lexLt a b = true → lexLt b c = true → lexLt a c = true := by
  intro a
  induction a with
  | nil =>
      intro b c h1 h2
      cases b with
      | nil => cases h1
      | cons y ys =>
          cases c with
          | nil => cases h2
          | cons z zs => rfl
  | cons x xs ih =>
      intro b c h1 h2
      cases b with
      | nil => cases h1
      | cons y ys =>
          cases c with
          | nil => cases h2
          | cons z zs =>
              show lexLt (x :: xs) (z :: zs) = true
              by_cases hxy : x = y
              · subst hxy
                rw [show lexLt (x :: xs) (x :: ys) = lexLt xs ys from by
                  show (if x = x then _ else _) = _
                  rw [if_pos rfl]] at h1
                by_cases hyz : x = z
                · subst hyz
                  rw [show lexLt (x :: ys) (x :: zs) = lexLt ys zs from by
                    show (if x = x then _ else _) = _
                    rw [if_pos rfl]] at h2
                  show (if x = x then _ else _) = _
                  rw [if_pos rfl]
                  exact ih h1 h2
                · rw [show lexLt (x :: ys) (z :: zs)
                      = decide (x.toNat < z.toNat) from by
                    show (if x = z then _ else _) = _
                    rw [if_neg hyz]] at h2
                  show (if x = z then _ else _) = _
                  rw [if_neg hyz]
                  exact h2
              · rw [show lexLt (x :: xs) (y :: ys) = decide (x.toNat < y.toNat) from by
                  show (if x = y then _ else _) = _
                  rw [if_neg hxy]] at h1
                have hxylt : x.toNat < y.toNat := of_decide_eq_true h1
                by_cases hyz : y = z
                · subst hyz
                  have hxz : ¬ x = y := hxy
                  show (if x = y then _ else _) = _
                  rw [if_neg hxz]
                  exact decide_eq_true hxylt
                · rw [show lexLt (y :: ys) (z :: zs)
                      = decide (y.toNat < z.toNat) from by
                    show (if y = z then _ else _) = _
                    rw [if_neg hyz]] at h2
                  have hyzlt : y.toNat < z.toNat := of_decide_eq_true h2
                  have hxz : ¬ x = z := by
                    intro he
                    subst he
                    omega
                  show (if x = z then _ else _) = _
                  rw [if_neg hxz]
                  exact decide_eq_true (by omega)

theorem lexLt_total : ∀ {a b : List Char},
    lexLt a b = false → lexLt b a = false → a = b := by
  intro a
  induction a with
  | nil =>
      intro b h1 _
      cases b with
      | nil => rfl
      | cons y ys => cases h1
  | cons x xs ih =>
      intro b h1 h2
      cases b with
      | nil => cases h2
      | cons y ys =>
          by_cases hxy : x = y
          · subst hxy
            rw [show lexLt (x :: xs) (x :: ys) = lexLt xs ys from by
              show (if x = x then _ else _) = _
              rw [if_pos rfl]] at h1
            rw [show lexLt (x :: ys) (x :: xs) = lexLt ys xs from by
              show (if x = x then _ else _) = _
              rw [if_pos rfl]] at h2
            rw [ih h1 h2]
          · rw [show lexLt (x :: xs) (y :: ys) = decide (x.toNat < y.toNat) from by
              show (if x = y then _ else _) = _
              rw [if_neg hxy]] at h1
            have hyx : ¬ y = x := fun he => hxy he.symm
            rw [show lexLt (y :: ys) (x :: xs) = decide (y.toNat < x.toNat) from by
              show (if y = x then _ else _) = _
              rw [if_neg hyx]] at h2
            have n1 := of_decide_eq_false h1
            have n2 := of_decide_eq_false h2
            exact absurd (charToNat_inj (by omega)) hxy

theorem strLt_irrefl (a : String) : strLt a a = false := lexLt_irrefl a.data

theorem strLt_trans {a b c : String} (h1 : strLt a b = true) (h2 : strLt b c = true) :
    strLt a c = true := lexLt_trans h1 h2

theorem strLt_total {a b : String} (h1 : strLt a b = false) (h2 : strLt b a = false) :
    a = b := by
  obtain ⟨da⟩ := a
  obtain ⟨db⟩ := b
  exact congrArg String.mk (lexLt_total h1 h2)

theorem minNode_cons (h b : String) (t : List String) :
    minNode h (b :: t) = minNode (if strLt h b then h else b) t := rfl

theorem minNode_mem (h : String) (t : List String) : minNode h t ∈ h :: t := by
  induction t generalizing h with
  | nil => exact List.mem_singleton_self h
  | cons b t ih =>
      rw [minNode_cons]
      have := ih (if strLt h b then h else b)
      rcases List.mem_cons.mp this with he | hm
      · rw [he]
        split
        · exact List.mem_cons_self _ _
        · exact List.mem_cons_of_mem _ (List.mem_cons_self _ _)
      · exact List.mem_cons_of_mem _ (List.mem_cons_of_mem _ hm)

theorem minNode_min (h : String) (t : List String) :
    ∀ x ∈ h :: t, strLt x (minNode h t) = false := by
  induction t generalizing h with
  | nil =>
      intro x hx
      rw [List.mem_singleton] at hx
      subst hx
      exact strLt_irrefl x
  | cons b t ih =>
      intro x hx
      rw [minNode_cons]
      set h' := if strLt h b then h else b with hh'
      have hmain := ih h'
      have hh'cases : (h' = h ∧ strLt h b = true) ∨ (h' = b ∧ strLt h b = false) := by
        rw [hh']
        by_cases hc : strLt h b = true
        · rw [if_pos hc]
          exact Or.inl ⟨rfl, hc⟩
        · rw [if_neg hc]
          exact Or.inr ⟨rfl, Bool.not_eq_true _ ▸ Bool.of_not_eq_true hc⟩
      rcases List.mem_cons.mp hx with rfl | hx'
      · -- x = h
        rcases hh'cases with ⟨he, _⟩ | ⟨he, hfalse⟩
        · exact hmain x (he ▸ List.mem_cons_self _ _)
        · -- h' = b, ¬ strLt h b
          cases hxm : strLt x (minNode h' t) with
          | false => rfl
          | true =>
              exfalso
              have hbm : strLt b (minNode h' t) = false :=
                hmain b (he ▸ List.mem_cons_self _ _)
              cases hbx : strLt b x with
              | false =>
                  have hxb : x = b := strLt_total hfalse hbx
                  rw [hxb] at hxm
                  rw [hxm] at hbm
                  cases hbm
              | true =>
                  have := strLt_trans hbx hxm
                  rw [this] at hbm
                  cases hbm
      · rcases List.mem_cons.mp hx' with rfl | hx''
        · -- x = b
          rcases hh'cases with ⟨he, htrue⟩ | ⟨he, _⟩
          · -- h' = h, h < b: if b < m then h < m contradicting min of h
            cases hxm : strLt x (minNode h' t) with
            | false => rfl
            | true =>
                exfalso
                have hhm : strLt h (minNode h' t) = false :=
                  hmain h (he ▸ List.mem_cons_self _ _)
                have := strLt_trans htrue hxm
                rw [this] at hhm
                cases hhm
          · exact hmain x (he ▸ List.mem_cons_self _ _)
        · exact hmain x (List.mem_cons_of_mem _ hx'')

theorem dfs_sound (adj : List (String × List String)) (start : String) :
    ∀ (fuel depth : Nat) (node : String) (path : List String),
      path.length = depth →
      (path ++ [node]).Nodup →
      (path ++ [node]).head? = some start →
      List.Chain' (fun a b => b ∈ adjGet adj a) (path ++ [node]) →
      ∀ c ∈ dfs adj start fuel depth node path,
        c.Nodup ∧ 3 ≤ c.length ∧ c.length ≤ depth + fuel
        ∧ c.head? = some start
        ∧ List.Chain' (fun a b => b ∈ adjGet adj a) c
        ∧ ∃ lst, c.getLast? = some lst ∧ start ∈ adjGet adj lst := by
  intro fuel
  induction fuel with
  | zero =>
      intro depth node path _ _ _ _ c hc
      cases hc
  | succ fuel ih =>
      intro depth node path hlen hnd hhead hch c hc
      rw [show dfs adj start (fuel + 1) depth node path
          = (adjGet adj node).flatMap (fun neighbor =>
              if neighbor = start ∧ 2 ≤ depth then [path ++ [node]]
              else if neighbor ∈ path ++ [node] then []
              else dfs adj start fuel (depth + 1) neighbor (path ++ [node])) from rfl,
        List.mem_flatMap] at hc
      obtain ⟨neighbor, hnb, hcb⟩ := hc
      by_cases h1 : neighbor = start ∧ 2 ≤ depth
      · rw [if_pos h1, List.mem_singleton] at hcb
        subst hcb
        have hlen' : (path ++ [node]).length = depth + 1 := by
          rw [List.length_append, hlen]
          rfl
        refine ⟨hnd, ?_, ?_, hhead, hch, node, List.getLast?_concat path, ?_⟩
        · rw [hlen']
          omega
        · rw [hlen']
          omega
        · rw [← h1.1]
          exact hnb
      · rw [if_neg h1] at hcb
        by_cases h2 : neighbor ∈ path ++ [node]
        · rw [if_pos h2] at hcb
          cases hcb
        · rw [if_neg h2] at hcb
          have hlen' : (path ++ [node]).length = depth + 1 := by
            rw [List.length_append, hlen]
            rfl
          have hnd' : ((path ++ [node]) ++ [neighbor]).Nodup := by
            rw [List.nodup_append]
            refine ⟨hnd, List.nodup_singleton neighbor, ?_⟩
            intro a ha hax
            rw [List.mem_singleton] at hax
            exact h2 (hax ▸ ha)
          have hhead' : ((path ++ [node]) ++ [neighbor]).head? = some start := by
            rw [List.head?_append, hhead]
            rfl
          have hch' : List.Chain' (fun a b => b ∈ adjGet adj a)
              ((path ++ [node]) ++ [neighbor]) := by
            rw [List.chain'_append]
            refine ⟨hch, List.chain'_singleton neighbor, ?_⟩
            intro x hx y hy
            rw [List.getLast?_concat, Option.mem_some_iff] at hx
            simp only [List.head?_cons, Option.mem_some_iff] at hy
            rw [← hx, ← hy]
            exact hnb
          have := ih (depth + 1) neighbor (path ++ [node]) hlen' hnd' hhead' hch' c hcb
          refine ⟨this.1, this.2.1, ?_, this.2.2.2⟩
          have hb := this.2.2.1
          omega

/-- A directed cyclic chain is preserved by swapping the two halves of the
list: the closing edge becomes the glue edge and vice versa. -/
theorem rotate_cyc (adj : List (String × List String)) (u v : List String)
    (hch : List.Chain' (fun a b => b ∈ adjGet adj a) (u ++ v))
    (hcl : ∃ lst h, (u ++ v).getLast? = some lst ∧ (u ++ v).head? = some h
        ∧ h ∈ adjGet adj lst) :
    List.Chain' (fun a b => b ∈ adjGet adj a) (v ++ u)
    ∧ ∃ lst h, (v ++ u).getLast? = some lst ∧ (v ++ u).head? = some h
        ∧ h ∈ adjGet adj lst := by
  rcases hu : u with _ | ⟨hu0, u'⟩
  · subst hu
    rw [List.nil_append] at hch hcl
    rw [List.append_nil]
    exact ⟨hch, hcl⟩
  rcases hv : v with _ | ⟨hv0, v'⟩
  · subst hu
    subst hv
    rw [List.append_nil] at hch hcl
    rw [List.nil_append]
    exact ⟨hch, hcl⟩
  subst hu
  subst hv
  obtain ⟨lst, hd, hlst, hhd, hedge⟩ := hcl
  rw [List.chain'_append] at hch
  obtain ⟨hchu, hchv, hglue⟩ := hch
  rw [List.getLast?_append_of_ne_nil _ (by simp)] at hlst
  rw [List.head?_append_of_ne_nil _ (by simp)] at hhd
  constructor
  · rw [List.chain'_append]
    refine ⟨hchv, hchu, ?_⟩
    intro x hx y hy
    rw [hlst, Option.mem_some_iff] at hx
    rw [hhd, Option.mem_some_iff] at hy
    rw [← hx, ← hy]
    exact hedge
  · obtain ⟨lu, hlu⟩ := Option.isSome_iff_exists.mp
      (List.getLast?_isSome.mpr (by simp : (hu0 :: u') ≠ []))
    refine ⟨lu, hv0, ?_, ?_, ?_⟩
    · rw [List.getLast?_append_of_ne_nil _ (by simp)]
      exact hlu
    · rw [List.head?_append_of_ne_nil _ (by simp)]
      rfl
    · have := hglue lu (by rw [hlu]; rfl) hv0 (by rfl)
      exact this

/-- `normalizeCycle` is the two-slice rotation at the index of the minimal
node. -/
theorem normalizeCycle_eq (h : String) (t : List String) :
    normalizeCycle (h :: t)
      = (h :: t).drop ((h :: t).indexOf (minNode h t))
        ++ (h :: t).take ((h :: t).indexOf (minNode h t)) := rfl

theorem normalizeCycle_perm (c : List String) : (normalizeCycle c).Perm c := by
  rcases c with _ | ⟨h, t⟩
  · exact List.Perm.refl _
  · rw [normalizeCycle_eq]
    refine (List.perm_append_comm).trans ?_
    rw [List.take_append_drop]

theorem normalizeCycle_head (h : String) (t : List String) :
    (normalizeCycle (h :: t)).head? = some (minNode h t) := by
  rw [normalizeCycle_eq]
  have hmem := minNode_mem h t
  have hidx : (h :: t).indexOf (minNode h t) < (h :: t).length :=
    List.indexOf_lt_length.mpr hmem
  have hdrop : ((h :: t).drop ((h :: t).indexOf (minNode h t))) ≠ [] := by
    intro he
    have := congrArg List.length he
    rw [List.length_drop] at this
    simp only [List.length_nil] at this
    omega
  rw [List.head?_append_of_ne_nil _ hdrop, List.head?_drop]
  rw [List.getElem?_eq_getElem hidx, List.getElem_indexOf hidx]

theorem normalizeCycle_cyc (adj : List (String × List String)) (c : List String)
    (hch : List.Chain' (fun a b => b ∈ adjGet adj a) c)
    (hcl : ∃ lst h, c.getLast? = some lst ∧ c.head? = some h ∧ h ∈ adjGet adj lst) :
    List.Chain' (fun a b => b ∈ adjGet adj a) (normalizeCycle c)
    ∧ ∃ lst h, (normalizeCycle c).getLast? = some lst
        ∧ (normalizeCycle c).head? = some h ∧ h ∈ adjGet adj lst := by
  rcases c with _ | ⟨h, t⟩
  · exact ⟨hch, hcl⟩
  · rw [normalizeCycle_eq]
    set i := (h :: t).indexOf (minNode h t)
    have hsplit : (h :: t).take i ++ (h :: t).drop i = h :: t := List.take_append_drop i _
    rw [← hsplit] at hch hcl
    exact rotate_cyc adj _ _ hch hcl

theorem mem_upsert_const {α β : Type} [DecidableEq α] :
    ∀ (m : List (α × β)) (k : α) (d : β) (n : β) (p : α × β),
      p ∈ upsert m k d (fun _ => n) → p ∈ m ∨ p.2 = n := by
  intro m
  induction m with
  | nil =>
      intro k d n p hp
      rw [show upsert ([] : List (α × β)) k d (fun _ => n) = [(k, n)] from rfl,
        List.mem_singleton] at hp
      exact Or.inr (congrArg Prod.snd hp)
  | cons q rest ih =>
      intro k d n p hp
      obtain ⟨k', v⟩ := q
      by_cases hk : k' = k
      · subst hk
        rw [upsert_cons_self, List.mem_cons] at hp
        rcases hp with hp | hp
        · exact Or.inr (congrArg Prod.snd hp)
        · exact Or.inl (List.mem_cons_of_mem _ hp)
      · rw [upsert_cons_ne hk, List.mem_cons] at hp
        rcases hp with hp | hp
        · exact Or.inl (hp ▸ List.mem_cons_self _ _)
        · rcases ih k d n p hp with h | h
          · exact Or.inl (List.mem_cons_of_mem _ h)
          · exact Or.inr h

theorem dedupeCycles_pred (Q : List String → Prop) (cs : List (List String))
    (hQ : ∀ c0 ∈ cs, Q (normalizeCycle c0)) :
    ∀ c ∈ dedupeCycles cs, Q c := by
  suffices h : ∀ (acc : List (String × List String)),
      (∀ p ∈ acc, Q p.2) →
      ∀ p ∈ cs.foldl (fun acc c =>
          upsert acc (String.intercalate "," (normalizeCycle c)) []
            (fun _ => normalizeCycle c)) acc, Q p.2 by
    intro c hc
    unfold dedupeCycles at hc
    rw [List.mem_map] at hc
    obtain ⟨p, hp, rfl⟩ := hc
    exact h [] (by intro p hp; cases hp) p hp
  induction cs with
  | nil => exact fun acc hacc => hacc
  | cons c0 rest ih =>
      intro acc hacc
      rw [List.foldl_cons]
      refine ih (fun c hc => hQ c (List.mem_cons_of_mem c0 hc)) _ ?_
      intro p hp
      rcases mem_upsert_const acc _ [] (normalizeCycle c0) p hp with h | h
      · exact hacc p h
      · rw [h]
        exact hQ c0 (List.mem_cons_self c0 rest)

/-- All structural properties of deduplicated cycles: distinct nodes, length
between 3 and `L + 1`, and a directed cyclic chain. -/
theorem detectCycles_sound (adj : List (String × List String)) (L : Nat) :
    ∀ c ∈ detectCycles adj L,
      c.Nodup ∧ 3 ≤ c.length ∧ c.length ≤ L + 1
      ∧ List.Chain' (fun a b => b ∈ adjGet adj a) c
      ∧ ∃ lst h, c.getLast? = some lst ∧ c.head? = some h ∧ h ∈ adjGet adj lst := by
  unfold detectCycles
  apply dedupeCycles_pred
  intro c0 hc0
  rw [List.mem_flatMap] at hc0
  obtain ⟨start, _, hdfs⟩ := hc0
  have props := dfs_sound adj start (L + 1) 0 start [] rfl
    (List.nodup_singleton start) rfl (List.chain'_singleton start) c0 hdfs
  have hperm := normalizeCycle_perm c0
  have hcyc := normalizeCycle_cyc adj c0 props.2.2.2.2.1
    ⟨props.2.2.2.2.2.choose, start, props.2.2.2.2.2.choose_spec.1, props.2.2.2.1,
      props.2.2.2.2.2.choose_spec.2⟩
  refine ⟨hperm.nodup_iff.mpr props.1, ?_, ?_, hcyc.1, hcyc.2⟩
  · rw [hperm.length_eq]
    exact props.2.1
  · rw [hperm.length_eq]
    have := props.2.2.1
    omega

/-- Every deduplicated cycle starts at its lexicographically smallest node:
no member compares strictly below the head under the JS string order. -/
theorem detectCycles_headMin (adj : List (String × List String)) (L : Nat) :
    ∀ c ∈ detectCycles adj L,
      ∃ hd, c.head? = some hd ∧ ∀ x ∈ c, strLt x hd = false := by
  unfold detectCycles
  apply dedupeCycles_pred
  intro c0 hc0
  rw [List.mem_flatMap] at hc0
  obtain ⟨start, _, hdfs⟩ := hc0
  have props := dfs_sound adj start (L + 1) 0 start [] rfl
    (List.nodup_singleton start) rfl (List.chain'_singleton start) c0 hdfs
  rcases c0 with _ | ⟨h, t⟩
  · have := props.2.1
    simp at this
  · refine ⟨minNode h t, normalizeCycle_head h t, ?_⟩
    intro x hx
    have hx' : x ∈ h :: t := (normalizeCycle_perm (h :: t)).mem_iff.mp hx
    exact minNode_min h t x hx'

/-- C3: every cycle returned by `detectCycles` has pairwise-distinct nodes,
between 3 and `L + 1` of them, every consecutive pair is a directed edge,
and the last node has an edge back to the first. -/
theorem C3_cycle_validity (adj : List (String × List String)) (L : Nat)
    (c : List String) (hc : c ∈ detectCycles adj L) :
    c.Nodup ∧ 3 ≤ c.length ∧ c.length ≤ L + 1
    ∧ List.Chain' (fun a b => b ∈ adjGet adj a) c
    ∧ ∃ lst h, c.getLast? = some lst ∧ c.head? = some h ∧ h ∈ adjGet adj lst :=
  detectCycles_sound adj L c hc

/-- Witness for `C3_cycle_validity`: the cycle detected on the synthetic
3-cycle input. -/
theorem C3_cycle_validity_witness :
    ["A", "B", "C"] ∈ detectCycles (buildGraph cyc3Rows).adj 5
    ∧ (["A", "B", "C"] : List String).Nodup
    ∧ 3 ≤ (["A", "B", "C"] : List String).length := by
  have hc : ["A", "B", "C"] ∈ detectCycles (buildGraph cyc3Rows).adj 5 := by decide
  have h := C3_cycle_validity (buildGraph cyc3Rows).adj 5 _ hc
  exact ⟨hc, h.1, h.2.1⟩

/-- C4: every returned cycle begins with its lexicographically smallest node
id, no two distinct returned cycles are rotations of one another, and on the
synthetic 3-cycle `A→B→C→A` exactly the one normalized cycle `[A, B, C]` is
returned, with all three nodes receiving the `cycle_length_3` pattern and a
score of at least 40. -/
theorem C4_cycle_normalization (adj : List (String × List String)) (L : Nat) :
    (∀ c ∈ detectCycles adj L, ∃ hd, c.head? = some hd ∧ ∀ x ∈ c, strLt x hd = false)
    ∧ (∀ c1 ∈ detectCycles adj L, ∀ c2 ∈ detectCycles adj L, c1.IsRotated c2 → c1 = c2)
    ∧ detectCycles (buildGraph cyc3Rows).adj 5 = [["A", "B", "C"]]
    ∧ (∀ n ∈ (["A", "B", "C"] : List String),
        "cycle_length_3" ∈ patternsOf (runAnalysis cyc3Rows).all_accounts n
        ∧ 40 ≤ scoreOf (runAnalysis cyc3Rows).all_accounts n) := by
  refine ⟨detectCycles_headMin adj L, ?_, by decide, by decide⟩
  intro c1 h1 c2 h2 hrot
  obtain ⟨hd1, hh1, hm1⟩ := detectCycles_headMin adj L c1 h1
  obtain ⟨hd2, hh2, hm2⟩ := detectCycles_headMin adj L c2 h2
  have props1 := detectCycles_sound adj L c1 h1
  have hpermc : c1.Perm c2 := hrot.perm
  have hd1mem : hd1 ∈ c1 := List.mem_of_mem_head? (by rw [hh1]; rfl)
  have hd2mem : hd2 ∈ c1 := hpermc.mem_iff.mpr (List.mem_of_mem_head? (by rw [hh2]; rfl))
  have heq : hd1 = hd2 :=
    strLt_total (hm2 hd1 (hpermc.mem_iff.mp hd1mem)) (hm1 hd2 hd2mem)
  obtain ⟨n, hn⟩ := hrot
  have hlen : 0 < c1.length := by
    have := props1.2.1
    omega
  have hn' : n % c1.length < c1.length := Nat.mod_lt n hlen
  have hrot' : c1.rotate (n % c1.length) = c2 := by
    rw [List.rotate_mod]
    exact hn
  have hidx : c1[n % c1.length]? = some hd1 := by
    have := List.head?_rotate hn'
    rw [hrot', hh2] at this
    rw [← this, heq]
  have hidx0 : c1[0]? = some hd1 := by
    rw [← List.head?_eq_getElem?]
    exact hh1
  have h0len : 0 < c1.length := hlen
  rw [List.getElem?_eq_getElem hn'] at hidx
  rw [List.getElem?_eq_getElem h0len] at hidx0
  have hzero : n % c1.length = 0 := by
    have heq2 : c1[n % c1.length] = c1[0] := by
      rw [Option.some.injEq] at hidx hidx0
      rw [hidx, hidx0]
    exact (props1.1.getElem_inj_iff).mp heq2
  rw [← hrot', hzero, List.rotate_zero]

/-- Witness for `C4_cycle_normalization`: the cycle list of the 3-cycle
input is rotation-free and head-minimal. -/
theorem C4_cycle_normalization_witness :
    ["A", "B", "C"] ∈ detectCycles (buildGraph cyc3Rows).adj 5
    ∧ ∃ hd, (["A", "B", "C"] : List String).head? = some hd
        ∧ ∀ x ∈ (["A", "B", "C"] : List String), strLt x hd = false := by
  have hc : ["A", "B", "C"] ∈ detectCycles (buildGraph cyc3Rows).adj 5 := by decide
  exact ⟨hc, (C4_cycle_normalization (buildGraph cyc3Rows).adj 5).1 _ hc⟩

end NeuroTrace
